import Mathlib

/-!
# dumpoffsets: the driver and the registry it drives

Part I embeds `tools/supported/dumpoffsets.cpp` (`main`).  The registry class
`DFHack::VersionInfoFactory` and `VersionInfo::PrintOffsets` are declared in
headers that are not part of the source tree at hand, so `main` takes the
constructor and `PrintOffsets` as parameters.

Part II models the resolution core (resolver, registry, printer) from the
specification, since its code is not in the source tree.
-/

set_option autoImplicit false

namespace DFHack

/-! ## Part I: the driver -/

/-- What `main` reads of a `DFHack::VersionInfoFactory`: the vector `versions`. -/
structure VersionInfoFactory (V : Type) where
  versions : List V
  deriving Repr, DecidableEq

/-- The externally visible steps of a run of `main`, in program order. -/
inductive Event (V : Type) where
  /-- Step `new DFHack::VersionInfoFactory(path)`. -/
  | construct (path : String)
  /-- Step `VIF->versions[i]->PrintOffsets()`. -/
  | printOffsets (i : Nat) (v : V)
  /-- Step `cout << s`. -/
  | write (s : String)
  /-- Step `cout << endl`. -/
  | endl
  /-- Step `cin.ignore()`. -/
  | cinIgnore
  /-- Step `delete VIF`. -/
  | destroy
  deriving Repr, DecidableEq

/-- How the process ends: `main` returns a status, or an exception leaves
`main` without a handler (`std::terminate`, abnormal termination). -/
inductive Outcome (E : Type) where
  | returned (status : Int)
  | uncaught (e : E)
  deriving Repr, DecidableEq

/-- The state of the process while `main` runs: the text written to `cout`,
the unread rest of `cin`, and the steps taken so far. -/
structure Process (V : Type) where
  cout : String
  cin : List Char
  trace : List (Event V)
  deriving Repr, DecidableEq

/-- A finished run: the final process state and how the process ended. -/
structure Run (E V : Type) where
  cout : String
  cin : List Char
  trace : List (Event V)
  outcome : Outcome E
  deriving Repr, DecidableEq

variable {E V : Type}

/-- The statement `cout << s`. -/
def Process.write (p : Process V) (s : String) : Process V :=
  { p with cout := p.cout ++ s, trace := p.trace ++ [Event.write s] }

/-- The statement `cout << endl`: the line is ended (and the stream flushed). -/
def Process.endl (p : Process V) : Process V :=
  { p with cout := p.cout ++ "\n", trace := p.trace ++ [Event.endl] }

/-- The statement `cin.ignore()`: one character is extracted and discarded. -/
def Process.ignore (p : Process V) : Process V :=
  { p with cin := p.cin.drop 1, trace := p.trace ++ [Event.cinIgnore] }

/-- A step that touches neither stream. -/
def Process.log (p : Process V) (e : Event V) : Process V :=
  { p with trace := p.trace ++ [e] }

/-- The process ends in state `p` with outcome `o`. -/
def Process.finish (p : Process V) (o : Outcome E) : Run E V :=
  { cout := p.cout, cin := p.cin, trace := p.trace, outcome := o }

/-- The text written before the pause in a build without `LINUX_BUILD`. -/
def donePrompt : String := "Done. Press any key to continue"

/-- The loop `for(int i = 0; i < VIF->versions.size(); i++) cout << VIF->versions[i]->PrintOffsets();`
from the counter value `i` on.  The first argument bounds the number of
iterations; `main` passes one more than the size of the vector, so the loop
always leaves through its test.  The counter is an `int` in the source and a
natural number here, which is exact for a vector of at most `INT_MAX`
versions (beyond that the increment would overflow). -/
def printLoop (PrintOffsets : V → String) (versions : List V) : Nat → Nat → Process V → Process V
  | 0, _, p => p
  | fuel + 1, i, p =>
    if h : i < versions.length then
      let v := versions.get ⟨i, h⟩
      printLoop PrintOffsets versions fuel (i + 1)
        ((p.log (Event.printOffsets i v)).write (PrintOffsets v))
    else p

/-- The function `main` of `dumpoffsets.cpp`.  `LINUX_BUILD` says whether the
macro of that name is defined; `newVersionInfoFactory` is the constructor of
`DFHack::VersionInfoFactory` (an error is an exception it throws);
`PrintOffsets` is `VersionInfo::PrintOffsets`.  There is no `try` block in
`main`: an exception of the constructor leaves `main`. -/
def main (LINUX_BUILD : Bool) (newVersionInfoFactory : String → Except E (VersionInfoFactory V))
    (PrintOffsets : V → String) (_numargs : Int) (_args : List String) (cin : List Char) :
    Run E V :=
  let p0 : Process V := { cout := "", cin := cin, trace := [] }
  let p1 := p0.log (Event.construct "Memory.xml")
  match newVersionInfoFactory "Memory.xml" with
  | Except.error e => p1.finish (Outcome.uncaught e)
  | Except.ok VIF =>
    let p2 := printLoop PrintOffsets VIF.versions (VIF.versions.length + 1) 0 p1
    let p3 := if LINUX_BUILD then p2 else ((p2.write donePrompt).endl).ignore
    let p4 := p3.log Event.destroy
    p4.finish (Outcome.returned 0)

/-- The steps of one loop iteration on version `v` at index `i`. -/
def iterationEvents (PrintOffsets : V → String) (iv : Nat × V) : List (Event V) :=
  [Event.printOffsets iv.1 iv.2, Event.write (PrintOffsets iv.2)]

/-- The calls of `PrintOffsets` in a trace, as (index, version) pairs in call order. -/
def printCalls : List (Event V) → List (Nat × V)
  | [] => []
  | Event.printOffsets i v :: es => (i, v) :: printCalls es
  | _ :: es => printCalls es

/-- The arguments of the constructor calls in a trace, in call order. -/
def constructArgs : List (Event V) → List String
  | [] => []
  | Event.construct path :: es => path :: constructArgs es
  | _ :: es => constructArgs es


/-! ## Part II: the resolution core, modelled from the specification -/

/-- Modelled from the spec: data model, not in the source tree; the platform
tag of a version entry (§3). The tag is kept as the attribute text. -/
abbrev Platform := String

/-- Modelled from the spec: data model, not in the source tree; the pointer
width a platform selects (§3, "32 or 64 bit, selected by the version's
platform attribute"). -/
inductive PtrWidth where
  | w32
  | w64
  deriving Repr, DecidableEq

/-- Modelled from the spec: data model, not in the source tree; the number of
hexadecimal digits of an address (§4.5, "8 hex digits for 32-bit, 16 for
64-bit"). -/
def PtrWidth.hexDigits : PtrWidth → Nat
  | PtrWidth.w32 => 8
  | PtrWidth.w64 => 16

/-- Modelled from the spec: data model, not in the source tree; the tagged
variant `OffsetKind` of §3. -/
inductive OffsetKind where
  | GlobalAddress (name : String) (address : Nat)
  | FunctionAddress (name : String) (address : Nat)
  | VTable (className : String) (address : Nat) (orderedMethodNames : List String)
  | ClassLayout (className : String) (vtableAddress : Option Nat)
      (orderedFields : List (String × Nat))
  deriving Repr, DecidableEq

/-- Modelled from the spec: data model, not in the source tree; the kind
discriminator, in the fixed category order of the printer (§4.5: globals,
functions, vtables, classes). -/
inductive Category where
  | globals
  | functions
  | vtables
  | classes
  deriving Repr, DecidableEq

/-- Modelled from the spec: data model, not in the source tree; the category
of a declaration. -/
def OffsetKind.category : OffsetKind → Category
  | OffsetKind.GlobalAddress _ _ => Category.globals
  | OffsetKind.FunctionAddress _ _ => Category.functions
  | OffsetKind.VTable _ _ _ => Category.vtables
  | OffsetKind.ClassLayout _ _ _ => Category.classes

/-- Modelled from the spec: data model, not in the source tree; the name a
declaration is known by. -/
def OffsetKind.name : OffsetKind → String
  | OffsetKind.GlobalAddress n _ => n
  | OffsetKind.FunctionAddress n _ => n
  | OffsetKind.VTable n _ _ => n
  | OffsetKind.ClassLayout n _ _ => n

/-- Modelled from the spec: data model, not in the source tree; the canonical
key, "kind discriminator + name" (§3). -/
structure Key where
  category : Category
  name : String
  deriving Repr, DecidableEq

/-- Modelled from the spec: data model, not in the source tree; the canonical
key of a declaration. -/
def OffsetKind.key (d : OffsetKind) : Key := { category := d.category, name := d.name }

/-- Modelled from the spec: data model, not in the source tree; the identity
of a version entry, platform and label (§3, §9). -/
structure Identity where
  platform : Platform
  label : String
  deriving Repr, DecidableEq

/-- Modelled from the spec: data model, not in the source tree; `VersionEntry`
of §3, with its local declarations in declaration order and an optional
inherits-from label (same platform). -/
structure VersionEntry where
  label : String
  platform : Platform
  inheritsFrom : Option String
  decls : List OffsetKind
  deriving Repr, DecidableEq

/-- Modelled from the spec: data model, not in the source tree; the identity
of an entry. -/
def VersionEntry.identity (e : VersionEntry) : Identity :=
  { platform := e.platform, label := e.label }

/-- Modelled from the spec: data model, not in the source tree; a resolved
offset table, the winning declarations in output order; the key of each is
`OffsetKind.key`. -/
abbrev Table := List OffsetKind

/-- Modelled from the spec: data model, not in the source tree;
`ResolvedVersion` of §3. -/
structure ResolvedVersion where
  label : String
  platform : Platform
  table : Table
  deriving Repr, DecidableEq

/-- Modelled from the spec: data model, not in the source tree; the identity
of a resolved version. -/
def ResolvedVersion.identity (r : ResolvedVersion) : Identity :=
  { platform := r.platform, label := r.label }

/-- Modelled from the spec: error taxonomy, not in the source tree; the error
taxonomy of §7. -/
inductive Error where
  | ParseError (line column : Nat) (message : String)
  | SchemaError (message : String)
  | DanglingReferenceError (label : String)
  | CycleError (path : List Identity)
  | NotFoundError (identity : Identity)
  deriving Repr, DecidableEq

/-- Modelled from the spec: Inheritance Resolver, not in the source tree; one
insertion into a table (§3): a new key is appended, an existing key has its
value overwritten in place. -/
def insertDecl : Table → OffsetKind → Table
  | [], d => [d]
  | x :: xs, d => if x.key = d.key then d :: xs else x :: insertDecl xs d

/-- Modelled from the spec: Inheritance Resolver, not in the source tree; the
local declarations of an entry applied, in declaration order, onto a copy of a
table (§4.3). -/
def applyDecls (t : Table) (ds : List OffsetKind) : Table :=
  ds.foldl insertDecl t

/-- Modelled from the spec: Inheritance Resolver, not in the source tree; the
entry an identity refers to. -/
def findEntry (all : List VersionEntry) (id : Identity) : Option VersionEntry :=
  all.find? (fun e => decide (e.identity = id))

/-- Modelled from the spec: Inheritance Resolver, not in the source tree; the
ancestor an entry declares (§3, §4.3): none, or the entry of that label on the
same platform. A label carried only by entries of other platforms is a
platform mismatch, a `SchemaError`; a label no entry carries is a
`DanglingReferenceError` naming it. -/
def ancestorOf (all : List VersionEntry) (e : VersionEntry) :
    Except Error (Option VersionEntry) :=
  match e.inheritsFrom with
  | none => Except.ok none
  | some l =>
    match findEntry all { platform := e.platform, label := l } with
    | some a => Except.ok (some a)
    | none =>
      if all.any (fun x => decide (x.label = l)) then
        Except.error (Error.SchemaError
          ("platform mismatch: " ++ e.label ++ " inherits from " ++ l))
      else Except.error (Error.DanglingReferenceError l)

/-- Modelled from the spec: Inheritance Resolver, not in the source tree; the
dependency graph (§4.3): one node per entry, in document order, with the
identity its edge `entry -> entry.inheritsFrom` points to, if it has one. -/
abbrev Graph := List (Identity × Option Identity)

/-- Modelled from the spec: Inheritance Resolver, not in the source tree;
"build a dependency graph edge `entry -> entry.inheritsFrom`" (§4.3); the
reference is to the label on the entry's own platform (§3). -/
def buildGraph (all : List VersionEntry) : Graph :=
  all.map (fun e =>
    (e.identity, e.inheritsFrom.map (fun l => { platform := e.platform, label := l })))

/-- Modelled from the spec: Inheritance Resolver, not in the source tree; the
identity the edge of node `id` points to; none for a node without edge and for
an identity that is no node. -/
def edgeOf : Graph → Identity → Option Identity
  | [], _ => none
  | (k, p) :: rest, id => if k = id then p else edgeOf rest id

/-- Modelled from the spec: Inheritance Resolver, not in the source tree; the
ordered list of identities forming the cycle that closes at `id`, given the
identities in progress (newest first). -/
def cyclePath (inProgress : List Identity) (id : Identity) : List Identity :=
  id :: (inProgress.takeWhile (fun x => decide (x ≠ id))).reverse

/-- Modelled from the spec: Inheritance Resolver, not in the source tree; the
markers of the cycle detection: the identities that are done and those in
progress (newest first); every other identity is unvisited. -/
structure WalkState where
  done : List Identity
  inProgress : List Identity
  deriving Repr, DecidableEq

/-- Modelled from the spec: Inheritance Resolver, not in the source tree; the
depth-first walk that detects a cycle before any resolution proceeds (§3),
with the three-state marker of §4.3: a done identity is left alone, an
identity in progress signals a cycle and fails at once with the identities
forming it, an unvisited identity is in progress while its edge is followed
and done afterwards. The walk reads the graph only; an edge to an identity that
is no node ends the walk there, since whether a reference matches an entry is
settled when the entry is resolved. The first argument bounds the depth of the
recursion; `none` means the bound was reached. -/
def detect (g : Graph) : Nat → WalkState → Identity → Option (Except (List Identity) WalkState)
  | 0, _, _ => none
  | fuel + 1, st, id =>
    if id ∈ st.done then some (Except.ok st)
    else if id ∈ st.inProgress then some (Except.error (cyclePath st.inProgress id))
    else
      match edgeOf g id with
      | none => some (Except.ok { st with done := id :: st.done })
      | some p =>
        match detect g fuel { st with inProgress := id :: st.inProgress } p with
        | none => none
        | some (Except.error path) => some (Except.error path)
        | some (Except.ok st') =>
          some (Except.ok { done := id :: st'.done, inProgress := st.inProgress })

/-- Modelled from the spec: Inheritance Resolver, not in the source tree; the
walk started at every identity of `ids` in turn, failing on the first cycle. -/
def detectAll (g : Graph) (fuel : Nat) :
    WalkState → List Identity → Option (Except (List Identity) WalkState)
  | st, [] => some (Except.ok st)
  | st, id :: ids =>
    match detect g fuel st id with
    | none => none
    | some (Except.error path) => some (Except.error path)
    | some (Except.ok st') => detectAll g fuel st' ids

/-- Modelled from the spec: Inheritance Resolver, not in the source tree; the
cycle the walk over all nodes, in document order, meets first, if there is
one. The recursion bound is one more than the number of nodes; the outer
`none` would mean it was reached. -/
def findCycle (g : Graph) : Option (Option (List Identity)) :=
  match detectAll g (g.length + 1) { done := [], inProgress := [] } (g.map Prod.fst) with
  | none => none
  | some (Except.error path) => some (some path)
  | some (Except.ok _) => some none

/-- Modelled from the spec: Inheritance Resolver, not in the source tree; the
three-state marker of §4.3. -/
inductive Mark where
  | unvisited
  | inProgress
  | done (t : Table)
  deriving Repr, DecidableEq

/-- Modelled from the spec: Inheritance Resolver, not in the source tree; the
state of the depth-first resolution: the memoized tables of the identities
that are done (newest first) and the identities in progress (newest first). -/
structure DfsState where
  done : List (Identity × Table)
  inProgress : List Identity
  deriving Repr, DecidableEq

/-- Modelled from the spec: Inheritance Resolver, not in the source tree; the
memoized table of an identity, if it is done. -/
def lookupTable : List (Identity × Table) → Identity → Option Table
  | [], _ => none
  | (k, t) :: rest, id => if k = id then some t else lookupTable rest id

/-- Modelled from the spec: Inheritance Resolver, not in the source tree; the
marker of an identity in a state. -/
def DfsState.mark (st : DfsState) (id : Identity) : Mark :=
  match lookupTable st.done id with
  | some t => Mark.done t
  | none => if id ∈ st.inProgress then Mark.inProgress else Mark.unvisited

/-- Modelled from the spec: Inheritance Resolver, not in the source tree; the
depth-first resolution of one entry (§4.3). A done identity yields its
memoized table; an identity in progress is a cycle; an entry without
`inheritsFrom` resolves to its own declarations; an entry that inherits
resolves its ancestor first and applies its own declarations onto the
ancestor's table. The first argument bounds the depth of the recursion; `none`
means the bound was reached. -/
def visit (all : List VersionEntry) :
    Nat → DfsState → VersionEntry → Option (Except Error (DfsState × Table))
  | 0, _, _ => none
  | fuel + 1, st, e =>
    match st.mark e.identity with
    | Mark.done t => some (Except.ok (st, t))
    | Mark.inProgress =>
      some (Except.error (Error.CycleError (cyclePath st.inProgress e.identity)))
    | Mark.unvisited =>
      match ancestorOf all e with
      | Except.error err => some (Except.error err)
      | Except.ok none =>
        let t := applyDecls [] e.decls
        some (Except.ok ({ st with done := (e.identity, t) :: st.done }, t))
      | Except.ok (some a) =>
        match visit all fuel { st with inProgress := e.identity :: st.inProgress } a with
        | none => none
        | some (Except.error err) => some (Except.error err)
        | some (Except.ok (st', ta)) =>
          let t := applyDecls ta e.decls
          some (Except.ok ({ done := (e.identity, t) :: st'.done,
                             inProgress := st.inProgress }, t))

/-- Modelled from the spec: Inheritance Resolver, not in the source tree; the
entries `es` resolved one after the other in document order, failing on the
first error. -/
def visitAll (all : List VersionEntry) (fuel : Nat) :
    DfsState → List VersionEntry → Option (Except Error DfsState)
  | st, [] => some (Except.ok st)
  | st, e :: es =>
    match visit all fuel st e with
    | none => none
    | some (Except.error err) => some (Except.error err)
    | some (Except.ok (st', _)) => visitAll all fuel st' es

/-- Modelled from the spec: Version Registry, not in the source tree; the
registry's resolved versions (§4.4), in document order. -/
abbrev Registry := List ResolvedVersion

/-- Modelled from the spec: Version Registry, not in the source tree; the
resolved versions read off the final state, in document order. -/
def collect (done : List (Identity × Table)) (all : List VersionEntry) : Registry :=
  all.filterMap (fun e =>
    (lookupTable done e.identity).map (fun t =>
      { label := e.label, platform := e.platform, table := t }))

/-- Modelled from the spec: Inheritance Resolver, not in the source tree;
`resolve(allEntries)` of §4.3. The dependency graph is built and searched for
a cycle first, so a cycle is detected before any resolution proceeds (§3) and
fails with the `CycleError` carrying its path; then every entry is resolved
depth-first in document order, and the first reference that does not resolve
fails the whole resolution. `none` would mean a recursion bound was reached. -/
def resolve (all : List VersionEntry) : Option (Except Error Registry) :=
  match findCycle (buildGraph all) with
  | none => none
  | some (some path) => some (Except.error (Error.CycleError path))
  | some none =>
    match visitAll all (all.length + 1) { done := [], inProgress := [] } all with
    | none => none
    | some (Except.error err) => some (Except.error err)
    | some (Except.ok st) => some (Except.ok (collect st.done all))

/-- Modelled from the spec: Version Registry, not in the source tree; the
registry built from the typed entries (§3, §4.4): a duplicated identity is a
`SchemaError`, otherwise the entries are resolved. -/
def Registry.build (all : List VersionEntry) : Option (Except Error Registry) :=
  if (all.map VersionEntry.identity).Nodup then resolve all
  else some (Except.error (Error.SchemaError "duplicate identity"))

/-- Modelled from the spec: Version Registry, not in the source tree;
`get(platform, label)` of §4.4. -/
def Registry.get (reg : Registry) (platform : Platform) (label : String) :
    Except Error ResolvedVersion :=
  match reg.find? (fun r => decide (r.identity = { platform := platform, label := label })) with
  | some r => Except.ok r
  | none => Except.error (Error.NotFoundError { platform := platform, label := label })

/-- Modelled from the spec: Offset Printer, not in the source tree; one
hexadecimal digit, lower case. -/
def hexDigit (n : Nat) : Char :=
  if n < 10 then Char.ofNat (48 + n) else Char.ofNat (87 + n)

/-- Modelled from the spec: Offset Printer, not in the source tree; the
`width` low hexadecimal digits of `n`, most significant first (§4.5,
fixed-width hexadecimal). -/
def hexFixed : Nat → Nat → List Char
  | 0, _ => []
  | width + 1, n => hexFixed width (n / 16) ++ [hexDigit (n % 16)]

/-- Modelled from the spec: Offset Printer, not in the source tree; an address
as fixed-width hexadecimal: the digits of the pointer width (§4.5). -/
def hexAddress (w : PtrWidth) (address : Nat) : String :=
  String.mk (hexFixed w.hexDigits address)

/-- Modelled from the spec: Offset Printer, not in the source tree; the
content of one line of a dump (§4.5): the line of a declaration, with its
category, its name and its address in hexadecimal, or an indented sub-entry, a
vtable method with its slot index or a class field with its offset. -/
inductive Line where
  | entry (category : Category) (name : String) (address : Option String)
  | method (slot : Nat) (name : String)
  | field (offset : Nat) (name : String)
  deriving Repr, DecidableEq

/-- Modelled from the spec: Offset Printer, not in the source tree; the
sub-entries of a vtable from slot `slot` on; slot index = position (§3). -/
def methodLines : Nat → List String → List Line
  | _, [] => []
  | slot, m :: ms => Line.method slot m :: methodLines (slot + 1) ms

/-- Modelled from the spec: Offset Printer, not in the source tree; the lines
of one declaration (§4.5). -/
def entryLines (w : PtrWidth) : OffsetKind → List Line
  | OffsetKind.GlobalAddress n a => [Line.entry Category.globals n (some (hexAddress w a))]
  | OffsetKind.FunctionAddress n a =>
    [Line.entry Category.functions n (some (hexAddress w a))]
  | OffsetKind.VTable n a ms =>
    Line.entry Category.vtables n (some (hexAddress w a)) :: methodLines 0 ms
  | OffsetKind.ClassLayout n va fs =>
    Line.entry Category.classes n (va.map (hexAddress w)) ::
      fs.map (fun fo => Line.field fo.2 fo.1)

/-- Modelled from the spec: Offset Printer, not in the source tree; the fixed
category order of the printer (§4.5). -/
def categoryOrder : List Category :=
  [Category.globals, Category.functions, Category.vtables, Category.classes]

/-- Modelled from the spec: Offset Printer, not in the source tree; the
declarations of one category, in the table's output order. -/
def ofCategory (t : Table) (c : Category) : List OffsetKind :=
  t.filter (fun d => decide (d.category = c))

/-- Modelled from the spec: Offset Printer, not in the source tree; the lines
of the dump of a resolved version: category by category in the fixed order,
within a category in the table's output order (§4.5). -/
def dumpLines (widthOf : Platform → PtrWidth) (rv : ResolvedVersion) : List Line :=
  categoryOrder.flatMap (fun c =>
    (ofCategory rv.table c).flatMap (entryLines (widthOf rv.platform)))

/-- Modelled from the spec: Offset Printer, not in the source tree;
`format(resolvedVersion)` of §4.5. The spec fixes the content of the lines, not
their text, which is left to the host program: `layout` is the text of a line. -/
def format (layout : Line → String) (widthOf : Platform → PtrWidth)
    (rv : ResolvedVersion) : String :=
  String.join ((dumpLines widthOf rv).map layout)

/-- Modelled from the spec: Offset Printer, not in the source tree; one line
text, as an instance: the kind, the name and `0x` with the address, sub-entries
indented by two blanks. -/
def plainLayout : Line → String
  | Line.entry Category.globals n a => "global " ++ n ++ (a.map (fun s => " 0x" ++ s)).getD "" ++ "\n"
  | Line.entry Category.functions n a =>
    "function " ++ n ++ (a.map (fun s => " 0x" ++ s)).getD "" ++ "\n"
  | Line.entry Category.vtables n a => "vtable " ++ n ++ (a.map (fun s => " 0x" ++ s)).getD "" ++ "\n"
  | Line.entry Category.classes n a => "class " ++ n ++ (a.map (fun s => " 0x" ++ s)).getD "" ++ "\n"
  | Line.method slot m => "  " ++ toString slot ++ " " ++ m ++ "\n"
  | Line.field off f => "  " ++ toString off ++ " " ++ f ++ "\n"

/-! ## Notions used to state the properties of the core -/

/-- The keys of a table, in output order. -/
def keys (t : Table) : List Key := t.map OffsetKind.key

/-- The last declaration of key `k` among `ds`: the value that wins. -/
def lastDecl (ds : List OffsetKind) (k : Key) : Option OffsetKind :=
  ds.reverse.find? (fun d => decide (d.key = k))

/-- Every identity is carried by one entry only (§3, the first invariant). -/
def UniqueIdentities (all : List VersionEntry) : Prop :=
  (all.map VersionEntry.identity).Nodup

/-- The inheritance chain from `e` ends at an entry without `inheritsFrom`
after fewer than `n` references, each of which matches an entry. -/
def reachesRoot (all : List VersionEntry) : Nat → VersionEntry → Bool
  | 0, _ => false
  | n + 1, e =>
    match e.inheritsFrom with
    | none => true
    | some l =>
      match findEntry all { platform := e.platform, label := l } with
      | none => false
      | some a => reachesRoot all n a

/-- The entry reached from `e` by following `k` inherits-from references. -/
def nthAncestor (all : List VersionEntry) : Nat → VersionEntry → Option VersionEntry
  | 0, e => some e
  | k + 1, e =>
    match e.inheritsFrom with
    | none => none
    | some l =>
      match findEntry all { platform := e.platform, label := l } with
      | none => none
      | some a => nthAncestor all k a

/-- Some entry is its own ancestor: the inheritance graph has a cycle. -/
def HasCycle (all : List VersionEntry) : Prop :=
  ∃ e ∈ all, ∃ k, 0 < k ∧ nthAncestor all k e = some e

/-- Every inherits-from label matches an entry on the same platform. -/
def NoDangling (all : List VersionEntry) : Prop :=
  ∀ e ∈ all, ∀ l, e.inheritsFrom = some l →
    findEntry all { platform := e.platform, label := l } ≠ none

/-- The table memoized for entry `e` is what §4.3 prescribes, given the
memoized tables `done`. -/
def Good (all : List VersionEntry) (done : List (Identity × Table)) (e : VersionEntry)
    (t : Table) : Prop :=
  match e.inheritsFrom with
  | none => t = applyDecls [] e.decls
  | some l => ∃ a ta, findEntry all { platform := e.platform, label := l } = some a ∧
      lookupTable done a.identity = some ta ∧ t = applyDecls ta e.decls

/-- The invariant of the memoized tables. -/
def Inv (all : List VersionEntry) (done : List (Identity × Table)) : Prop :=
  ∀ id t, lookupTable done id = some t →
    (keys t).Nodup ∧ ∃ e ∈ all, e.identity = id ∧ Good all done e t ∧
      ∃ n, reachesRoot all n e = true

/-- No identity in progress is done. -/
def Disj (st : DfsState) : Prop :=
  ∀ id ∈ st.inProgress, lookupTable st.done id = none

/-- The memoized tables of `d` are kept in `d'`. -/
def Ext (d d' : List (Identity × Table)) : Prop :=
  ∀ id t, lookupTable d id = some t → lookupTable d' id = some t

/-- Every entry's inheritance chain ends at an entry without `inheritsFrom`:
all references match an entry and the inheritance graph is acyclic. -/
def Grounded (all : List VersionEntry) : Prop :=
  ∀ e ∈ all, ∃ n, reachesRoot all n e = true

/-- The chain of edges from `id` ends after fewer than `n` edges. -/
def chainEnds (g : Graph) : Nat → Identity → Bool
  | 0, _ => false
  | n + 1, id =>
    match edgeOf g id with
    | none => true
    | some p => chainEnds g n p

/-- The identity reached from `id` by following `k` edges. -/
def iterEdge (g : Graph) : Nat → Identity → Option Identity
  | 0, id => some id
  | k + 1, id =>
    match edgeOf g id with
    | none => none
    | some p => iterEdge g k p

/-- Every identity that is done has a chain of edges that ends. -/
def InvG (g : Graph) (done : List Identity) : Prop :=
  ∀ id ∈ done, ∃ n, chainEnds g n id = true

/-- The declarations of a table in the order the printer emits them. -/
def printOrder (t : Table) : List OffsetKind :=
  categoryOrder.flatMap (ofCategory t)

/-- The position of a category in the fixed category order. -/
def Category.rank : Category → Nat
  | Category.globals => 0
  | Category.functions => 1
  | Category.vtables => 2
  | Category.classes => 3

/-- The value of one lower-case hexadecimal digit. -/
def hexDigitValue (c : Char) : Nat :=
  if c.toNat < 58 then c.toNat - 48 else c.toNat - 87

/-- The number a string of hexadecimal digits denotes, most significant first. -/
def hexValue (cs : List Char) : Nat :=
  cs.foldl (fun acc c => 16 * acc + hexDigitValue c) 0

/-- The hexadecimal digits, lower case. -/
def hexDigits : List Char := "0123456789abcdef".toList

/-- The inheritance-free entry `base` of the end-to-end example. -/
def exampleBase : VersionEntry :=
  { label := "base", platform := "p", inheritsFrom := none,
    decls := [OffsetKind.GlobalAddress "g_foo" 0x1000] }

/-- The entry `child` of the end-to-end example, which inherits `base`. -/
def exampleChild : VersionEntry :=
  { label := "child", platform := "p", inheritsFrom := some "base",
    decls := [OffsetKind.FunctionAddress "fn_bar" 0x2000] }

/-- An entry that declares a global and a function. -/
def overrideBase : VersionEntry :=
  { label := "v1", platform := "linux", inheritsFrom := none,
    decls := [OffsetKind.GlobalAddress "cursor" 0x10, OffsetKind.FunctionAddress "tick" 0x20] }

/-- An entry that inherits `v1`, overrides the function and adds a global. -/
def overrideChild : VersionEntry :=
  { label := "v2", platform := "linux", inheritsFrom := some "v1",
    decls := [OffsetKind.FunctionAddress "tick" 0x30, OffsetKind.GlobalAddress "window" 0x40] }

/-- Two entries that inherit from each other, and an entry with a dangling label. -/
def cycleAndGhost : List VersionEntry :=
  [{ label := "a", platform := "p", inheritsFrom := some "b", decls := [] },
   { label := "b", platform := "p", inheritsFrom := some "a", decls := [] },
   { label := "z", platform := "p", inheritsFrom := some "ghost", decls := [] }]

/-- The resolved version `child` of the end-to-end example. -/
def exampleChildResolved : ResolvedVersion :=
  { label := "child", platform := "p",
    table := [OffsetKind.GlobalAddress "g_foo" 0x1000,
              OffsetKind.FunctionAddress "fn_bar" 0x2000] }

/-- A registry of two versions, each known by its label. -/
def exampleFactory : VersionInfoFactory String :=
  { versions := ["v0.28.181.40d", "v0.31.01"] }

/-- A constructor that succeeds with `exampleFactory`. -/
def exampleNew : String → Except Error (VersionInfoFactory String) :=
  fun _ => Except.ok exampleFactory

/-- A `PrintOffsets` for versions known by their label. -/
def examplePrintOffsets : String → String :=
  fun v => "version " ++ v ++ "\n"

/-- A constructor whose load fails with a `ParseError`. -/
def failingNew : String → Except Error (VersionInfoFactory String) :=
  fun _ => Except.error (Error.ParseError 3 7 "unterminated tag")

/-- A storage that holds one definition source under the name `Memory.xml`. -/
def exampleStorage : String → Option String :=
  fun path => if path = "Memory.xml" then some "<DFHack></DFHack>" else none

/-- A constructor that reads its source from `exampleStorage` under the name
it is given. -/
def storageNew : String → Except Error (VersionInfoFactory String) :=
  fun path =>
    match exampleStorage path with
    | none => Except.error (Error.ParseError 0 0 "cannot open the file")
    | some _ => Except.ok exampleFactory

/-- The identity an identity inherits from: the reference of its entry. -/
def parentId (all : List VersionEntry) (id : Identity) : Option Identity :=
  match findEntry all id with
  | none => none
  | some e => e.inheritsFrom.map (fun l => { platform := e.platform, label := l })

/-- The path starts at some identity, every identity on it inherits from the
next one, and the last one inherits from the first: a full cycle of the
inheritance graph. -/
def ClosedWalk (all : List VersionEntry) (path : List Identity) : Prop :=
  ∃ id rest, path = id :: rest ∧
    List.Chain' (fun x y => parentId all x = some y) (path ++ [id])

/-! ## Theorems, part I: the driver -/

section Driver

variable {E V : Type}

theorem join_cons (s : String) (l : List String) :
    String.join (s :: l) = s ++ String.join l := by
  apply String.ext
  simp [String.join_eq]

theorem join_nil : String.join [] = "" := rfl

/-- The loop from counter `i` on writes the dumps of the versions from index
`i` on, one after the other, and takes the two steps of each iteration in
index order. -/
theorem printLoop_spec (PrintOffsets : V → String) (versions : List V) :
    ∀ (fuel i : Nat) (p : Process V), versions.length < fuel + i →
      printLoop PrintOffsets versions fuel i p =
        { cout := p.cout ++ String.join ((versions.drop i).map PrintOffsets),
          cin := p.cin,
          trace := p.trace ++
            ((versions.drop i).enumFrom i).flatMap (iterationEvents PrintOffsets) } := by
  intro fuel
  induction fuel with
  | zero =>
    intro i p h
    have hd : versions.drop i = [] := List.drop_eq_nil_of_le (by omega)
    simp [printLoop, hd, join_nil]
  | succ fuel ih =>
    intro i p h
    unfold printLoop
    by_cases hi : i < versions.length
    · rw [dif_pos hi]
      simp only []
      rw [ih (i + 1) _ (by omega), List.drop_eq_getElem_cons hi]
      simp only [Process.write, Process.log, join_cons, iterationEvents, String.append_assoc,
        List.enumFrom_cons, List.map_cons, List.flatMap_cons, List.append_assoc,
        List.singleton_append, List.cons_append, List.nil_append, List.get_eq_getElem]
    · rw [dif_neg hi]
      have hd : versions.drop i = [] := List.drop_eq_nil_of_le (by omega)
      simp [hd, join_nil]

/-- The run of `main` when the constructor succeeds. -/
theorem main_ok (LINUX_BUILD : Bool) (ctor : String → Except E (VersionInfoFactory V))
    (PrintOffsets : V → String) (numargs : Int) (args : List String) (cin : List Char)
    (VIF : VersionInfoFactory V) (hok : ctor "Memory.xml" = Except.ok VIF) :
    main LINUX_BUILD ctor PrintOffsets numargs args cin =
      { cout := String.join (VIF.versions.map PrintOffsets) ++
          (if LINUX_BUILD then "" else donePrompt ++ "\n"),
        cin := if LINUX_BUILD then cin else cin.drop 1,
        trace := [Event.construct "Memory.xml"] ++
          VIF.versions.enum.flatMap (iterationEvents PrintOffsets) ++
          (if LINUX_BUILD then [] else [Event.write donePrompt, Event.endl, Event.cinIgnore]) ++
          [Event.destroy],
        outcome := Outcome.returned 0 } := by
  unfold main
  simp only [hok]
  rw [printLoop_spec PrintOffsets VIF.versions _ 0 _ (by omega)]
  cases LINUX_BUILD <;>
    simp [Process.log, Process.write, Process.endl, Process.ignore, Process.finish, List.enum,
      String.append_assoc]

/-- The run of `main` when the constructor throws. -/
theorem main_error (LINUX_BUILD : Bool) (ctor : String → Except E (VersionInfoFactory V))
    (PrintOffsets : V → String) (numargs : Int) (args : List String) (cin : List Char)
    (e : E) (herr : ctor "Memory.xml" = Except.error e) :
    main LINUX_BUILD ctor PrintOffsets numargs args cin =
      { cout := "", cin := cin, trace := [Event.construct "Memory.xml"],
        outcome := Outcome.uncaught e } := by
  unfold main
  simp [herr, Process.log, Process.finish]

theorem printCalls_append (xs ys : List (Event V)) :
    printCalls (xs ++ ys) = printCalls xs ++ printCalls ys := by
  induction xs with
  | nil => rfl
  | cons x xs ih => cases x <;> simp [printCalls, ih]

theorem printCalls_iterations (PrintOffsets : V → String) (l : List (Nat × V)) :
    printCalls (l.flatMap (iterationEvents PrintOffsets)) = l := by
  induction l with
  | nil => rfl
  | cons x xs ih =>
    rw [List.flatMap_cons, printCalls_append, ih]
    simp [iterationEvents, printCalls]

theorem constructArgs_append (xs ys : List (Event V)) :
    constructArgs (xs ++ ys) = constructArgs xs ++ constructArgs ys := by
  induction xs with
  | nil => rfl
  | cons x xs ih => cases x <;> simp [constructArgs, ih]

theorem constructArgs_iterations (PrintOffsets : V → String) (l : List (Nat × V)) :
    constructArgs (l.flatMap (iterationEvents PrintOffsets)) = [] := by
  induction l with
  | nil => rfl
  | cons x xs ih =>
    rw [List.flatMap_cons, constructArgs_append, ih]
    simp [iterationEvents, constructArgs]

end Driver


/-! ## Theorems, part II: the override rule -/

section Merge

theorem keys_insertDecl (t : Table) (d : OffsetKind) :
    keys (insertDecl t d) = if d.key ∈ keys t then keys t else keys t ++ [d.key] := by
  induction t with
  | nil => simp [insertDecl, keys]
  | cons x xs ih =>
    unfold insertDecl
    by_cases hx : x.key = d.key
    · simp [hx, keys]
    · have hx' : ¬ d.key = x.key := fun h => hx h.symm
      rw [if_neg hx]
      unfold keys at ih ⊢
      rw [List.map_cons, ih]
      by_cases hm : d.key ∈ List.map OffsetKind.key xs
      · simp [hm]
      · simp [hm, hx']

theorem keys_insertDecl_nodup (t : Table) (d : OffsetKind) (h : (keys t).Nodup) :
    (keys (insertDecl t d)).Nodup := by
  rw [keys_insertDecl]
  by_cases hm : d.key ∈ keys t
  · simpa [hm] using h
  · rw [if_neg hm]
    exact List.Nodup.append h (List.nodup_singleton _) (by simpa using hm)

theorem mem_insertDecl (t : Table) (d x : OffsetKind) (h : (keys t).Nodup)
    (hx : x ∈ insertDecl t d) : x = d ∨ (x ∈ t ∧ x.key ≠ d.key) := by
  induction t with
  | nil => simp [insertDecl] at hx; exact Or.inl hx
  | cons y ys ih =>
    unfold insertDecl at hx
    have hn : y.key ∉ keys ys ∧ (keys ys).Nodup := by simpa [keys] using h
    by_cases hy : y.key = d.key
    · rw [if_pos hy] at hx
      rcases List.mem_cons.mp hx with h1 | h1
      · exact Or.inl h1
      · refine Or.inr ⟨List.mem_cons_of_mem _ h1, ?_⟩
        intro hk
        apply hn.1
        rw [hy, ← hk]
        exact List.mem_map_of_mem _ h1
    · rw [if_neg hy] at hx
      rcases List.mem_cons.mp hx with h1 | h1
      · subst h1
        exact Or.inr ⟨List.mem_cons_self _ _, hy⟩
      · rcases ih hn.2 h1 with h2 | h2
        · exact Or.inl h2
        · exact Or.inr ⟨List.mem_cons_of_mem _ h2.1, h2.2⟩

theorem applyDecls_snoc (t : Table) (ds : List OffsetKind) (d : OffsetKind) :
    applyDecls t (ds ++ [d]) = insertDecl (applyDecls t ds) d := by
  simp [applyDecls, List.foldl_append]

theorem keys_applyDecls_nodup (t : Table) (ds : List OffsetKind) (h : (keys t).Nodup) :
    (keys (applyDecls t ds)).Nodup := by
  induction ds using List.reverseRecOn with
  | nil => simpa [applyDecls] using h
  | append_singleton ds d ih =>
    rw [applyDecls_snoc]
    exact keys_insertDecl_nodup _ _ ih

theorem lastDecl_snoc_self (ds : List OffsetKind) (d : OffsetKind) :
    lastDecl (ds ++ [d]) d.key = some d := by
  simp [lastDecl]

theorem lastDecl_snoc_ne (ds : List OffsetKind) (d : OffsetKind) (k : Key) (h : d.key ≠ k) :
    lastDecl (ds ++ [d]) k = lastDecl ds k := by
  simp [lastDecl, h]

theorem lastDecl_key (ds : List OffsetKind) (k : Key) (d : OffsetKind)
    (h : lastDecl ds k = some d) : d.key = k ∧ d ∈ ds := by
  unfold lastDecl at h
  have h1 := List.find?_some h
  have h2 := List.mem_of_find?_eq_some h
  exact ⟨by simpa using h1, by simpa using h2⟩

/-- The keys of the merged table: the keys of `t` first, then the new keys,
each once, in the order of their first declaration. -/
theorem keys_applyDecls (t : Table) (ds : List OffsetKind) :
    ∃ ext : List Key, keys (applyDecls t ds) = keys t ++ ext ∧
      (∀ k, k ∈ ext ↔ (k ∈ ds.map OffsetKind.key ∧ k ∉ keys t)) ∧
      ext.Pairwise (fun k1 k2 =>
        (ds.map OffsetKind.key).indexOf k1 < (ds.map OffsetKind.key).indexOf k2) := by
  induction ds using List.reverseRecOn with
  | nil => exact ⟨[], by simp [applyDecls], by simp, List.Pairwise.nil⟩
  | append_singleton ds d ih =>
    obtain ⟨ext, hk, hmem, hpw⟩ := ih
    rw [applyDecls_snoc, keys_insertDecl, hk]
    have hpw' : ext.Pairwise (fun k1 k2 =>
        ((ds ++ [d]).map OffsetKind.key).indexOf k1 <
          ((ds ++ [d]).map OffsetKind.key).indexOf k2) := by
      refine List.Pairwise.imp_of_mem ?_ hpw
      intro a b ha hb hab
      rw [List.map_append, List.indexOf_append_of_mem ((hmem a).mp ha).1,
        List.indexOf_append_of_mem ((hmem b).mp hb).1]
      exact hab
    by_cases hd : d.key ∈ keys t ++ ext
    · rw [if_pos hd]
      refine ⟨ext, rfl, ?_, hpw'⟩
      intro k
      constructor
      · intro hke
        have := (hmem k).mp hke
        exact ⟨by simp [this.1], this.2⟩
      · rintro ⟨hk1, hk2⟩
        rw [List.map_append, List.mem_append] at hk1
        rcases hk1 with hk1 | hk1
        · exact (hmem k).mpr ⟨hk1, hk2⟩
        · have hkd : k = d.key := by simpa using hk1
          subst hkd
          rcases List.mem_append.mp hd with h1 | h1
          · exact absurd h1 hk2
          · exact h1
    · rw [if_neg hd]
      have hdt : d.key ∉ keys t := fun h => hd (List.mem_append_left _ h)
      have hde : d.key ∉ ext := fun h => hd (List.mem_append_right _ h)
      have hdd : d.key ∉ ds.map OffsetKind.key := fun h => hde ((hmem _).mpr ⟨h, hdt⟩)
      refine ⟨ext ++ [d.key], by simp, ?_, ?_⟩
      · intro k
        constructor
        · intro hke
          rcases List.mem_append.mp hke with h1 | h1
          · have := (hmem k).mp h1
            exact ⟨by simp [this.1], this.2⟩
          · have hkd : k = d.key := by simpa using h1
            subst hkd
            exact ⟨by simp, hdt⟩
        · rintro ⟨hk1, hk2⟩
          rw [List.map_append, List.mem_append] at hk1
          rcases hk1 with hk1 | hk1
          · exact List.mem_append_left _ ((hmem k).mpr ⟨hk1, hk2⟩)
          · exact List.mem_append_right _ (by simpa using hk1)
      · rw [List.pairwise_append]
        refine ⟨hpw', List.pairwise_singleton _ _, ?_⟩
        intro a ha b hb
        have hbd : b = d.key := by simpa using hb
        subst hbd
        have ha' := ((hmem a).mp ha).1
        rw [List.map_append, List.indexOf_append_of_mem ha',
          List.indexOf_append_of_not_mem hdd]
        have := List.indexOf_lt_length.mpr ha'
        omega

/-- The values of the merged table: a key the declarations mention carries
its last declaration, every other entry is an entry of `t`. -/
theorem values_applyDecls (t : Table) (ds : List OffsetKind) (h : (keys t).Nodup) :
    ∀ x ∈ applyDecls t ds,
      (x.key ∈ ds.map OffsetKind.key → lastDecl ds x.key = some x) ∧
      (x.key ∉ ds.map OffsetKind.key → x ∈ t) := by
  induction ds using List.reverseRecOn with
  | nil => intro x hx; simpa [applyDecls] using hx
  | append_singleton ds d ih =>
    intro x hx
    rw [applyDecls_snoc] at hx
    rcases mem_insertDecl _ d x (keys_applyDecls_nodup t ds h) hx with h1 | ⟨h1, h2⟩
    · subst h1
      exact ⟨fun _ => lastDecl_snoc_self ds x, fun hn => absurd (by simp) hn⟩
    · have hne : d.key ≠ x.key := fun hh => h2 hh.symm
      obtain ⟨ih1, ih2⟩ := ih x h1
      constructor
      · intro hm
        rw [lastDecl_snoc_ne ds d x.key hne]
        apply ih1
        rw [List.map_append, List.mem_append] at hm
        rcases hm with hm | hm
        · exact hm
        · exact absurd (by simpa using hm) h2
      · intro hm
        apply ih2
        intro hh
        exact hm (by simp [hh])

end Merge

/-! ## Theorems, part II: the cycle detection on the dependency graph -/

section Detection

theorem stack_split (s : List Identity) (id : Identity) (h : id ∈ s) :
    ∃ rest, s = s.takeWhile (fun x => decide (x ≠ id)) ++ id :: rest := by
  induction s with
  | nil => simp at h
  | cons x xs ih =>
    by_cases hx : x = id
    · subst hx
      exact ⟨xs, by simp [List.takeWhile]⟩
    · have hmem : id ∈ xs := by
        rcases List.mem_cons.mp h with h1 | h1
        · exact absurd h1.symm hx
        · exact h1
      obtain ⟨rest, hrest⟩ := ih hmem
      refine ⟨rest, ?_⟩
      have : decide (x ≠ id) = true := by simpa using hx
      rw [List.takeWhile_cons, this]
      simp only [if_true, List.cons_append]
      rw [← hrest]

/-- The reported path closes: along the identities in progress, oldest first,
from `id` back to `id`. -/
theorem cyclePath_chain (R : Identity → Identity → Prop) (s : List Identity) (id : Identity)
    (h : id ∈ s) (hc : List.Chain' R (s.reverse ++ [id])) :
    List.Chain' R (cyclePath s id ++ [id]) := by
  obtain ⟨rest, hrest⟩ := stack_split s id h
  unfold cyclePath
  have hs : s.reverse ++ [id] =
      rest.reverse ++ ((id :: (s.takeWhile (fun x => decide (x ≠ id))).reverse) ++ [id]) := by
    conv_lhs => rw [hrest]
    simp
  rw [hs] at hc
  exact (List.chain'_append.mp hc).2.1

/-- The reported path names no identity twice. -/
theorem cyclePath_nodup (s : List Identity) (id : Identity) (hn : s.Nodup) :
    (cyclePath s id).Nodup := by
  unfold cyclePath
  rw [List.nodup_cons]
  constructor
  · intro hmem
    rw [List.mem_reverse] at hmem
    have := List.mem_takeWhile_imp hmem
    simp at this
  · rw [List.nodup_reverse]
    exact List.Nodup.sublist (List.takeWhile_sublist _) hn

theorem edgeOf_some_mem (g : Graph) (id p : Identity) (h : edgeOf g id = some p) :
    id ∈ g.map Prod.fst := by
  induction g with
  | nil => simp [edgeOf] at h
  | cons x xs ih =>
    obtain ⟨k, q⟩ := x
    unfold edgeOf at h
    by_cases hk : k = id
    · simp [hk]
    · rw [if_neg hk] at h
      simp only [List.map_cons, List.mem_cons]
      exact Or.inr (ih h)

theorem graph_stack_length_le (g : Graph) (s : List Identity) (hn : s.Nodup)
    (hs : ∀ id ∈ s, id ∈ g.map Prod.fst) : s.length ≤ g.length := by
  have h := (List.subperm_of_subset hn hs).length_le
  simpa using h

theorem detect_inProgress (g : Graph) (fuel : Nat) (st : WalkState) (id : Identity)
    (st' : WalkState) (h : detect g fuel st id = some (Except.ok st')) :
    st'.inProgress = st.inProgress := by
  cases fuel with
  | zero => simp [detect] at h
  | succ fuel =>
    rw [detect] at h
    split at h
    · cases h; rfl
    · split at h
      · simp at h
      · split at h
        · cases h; rfl
        · split at h
          · simp at h
          · simp at h
          · cases h; rfl

/-- The recursion bound of the walk is never reached. -/
theorem detect_some (g : Graph) :
    ∀ (fuel : Nat) (st : WalkState) (id : Identity),
      st.inProgress.Nodup → (∀ x ∈ st.inProgress, x ∈ g.map Prod.fst) →
      g.length + 1 ≤ fuel + st.inProgress.length →
      ∃ r, detect g fuel st id = some r := by
  intro fuel
  induction fuel with
  | zero =>
    intro st id hn hs hf
    have := graph_stack_length_le g st.inProgress hn hs
    omega
  | succ fuel ih =>
    intro st id hn hs hf
    rw [detect]
    by_cases hd : id ∈ st.done
    · simp only [hd, if_true]; exact ⟨_, rfl⟩
    · simp only [hd, if_false]
      by_cases hp : id ∈ st.inProgress
      · simp only [hp, if_true]; exact ⟨_, rfl⟩
      · simp only [hp, if_false]
        cases he : edgeOf g id with
        | none => exact ⟨_, rfl⟩
        | some p =>
          obtain ⟨r, hr⟩ := ih { done := st.done, inProgress := id :: st.inProgress } p
            (List.nodup_cons.mpr ⟨hp, hn⟩)
            (by
              intro x hx
              rcases List.mem_cons.mp hx with h1 | h1
              · rw [h1]; exact edgeOf_some_mem g id p he
              · exact hs x h1)
            (by simp only [List.length_cons]; omega)
          simp only [hr]
          cases r with
          | error path => exact ⟨_, rfl⟩
          | ok st' => exact ⟨_, rfl⟩

theorem detectAll_some (g : Graph) (fuel : Nat) (hf : g.length + 1 ≤ fuel) :
    ∀ (ids : List Identity) (st : WalkState), st.inProgress = [] →
      ∃ r, detectAll g fuel st ids = some r := by
  intro ids
  induction ids with
  | nil => intro st _; exact ⟨_, rfl⟩
  | cons id ids ih =>
    intro st hs
    rw [detectAll]
    obtain ⟨r, hr⟩ := detect_some g fuel st id (by rw [hs]; exact List.nodup_nil)
      (by rw [hs]; intro x hx; simp at hx) (by rw [hs]; simpa using hf)
    rw [hr]
    cases r with
    | error path => exact ⟨_, rfl⟩
    | ok st1 =>
      simp only []
      exact ih st1 ((detect_inProgress g fuel st id st1 hr).trans hs)

/-- The cycle detection always returns. -/
theorem findCycle_some (g : Graph) : ∃ r, findCycle g = some r := by
  unfold findCycle
  obtain ⟨r, hr⟩ := detectAll_some g (g.length + 1) (le_refl _) (g.map Prod.fst)
    { done := [], inProgress := [] } rfl
  rw [hr]
  cases r with
  | error path => exact ⟨_, rfl⟩
  | ok st => exact ⟨_, rfl⟩

/-- A path the walk reports is a full cycle: no identity twice, every
identity with an edge to the next one, the last one with an edge to the first. -/
theorem detect_cycle (g : Graph) :
    ∀ (fuel : Nat) (st : WalkState) (id : Identity) (path : List Identity),
      st.inProgress.Nodup →
      List.Chain' (fun x y => edgeOf g x = some y) (st.inProgress.reverse ++ [id]) →
      detect g fuel st id = some (Except.error path) →
      path.Nodup ∧ ∃ hd rest, path = hd :: rest ∧
        List.Chain' (fun x y => edgeOf g x = some y) (path ++ [hd]) := by
  intro fuel
  induction fuel with
  | zero => intro st id path _ _ h; simp [detect] at h
  | succ fuel ih =>
    intro st id path hn hc h
    rw [detect] at h
    by_cases hd : id ∈ st.done
    · simp [hd] at h
    · simp only [hd, if_false] at h
      by_cases hp : id ∈ st.inProgress
      · simp only [hp, if_true, Option.some.injEq, Except.error.injEq] at h
        subst h
        exact ⟨cyclePath_nodup _ _ hn, id, _, rfl, cyclePath_chain _ _ _ hp hc⟩
      · simp only [hp, if_false] at h
        cases he : edgeOf g id with
        | none => simp [he] at h
        | some p =>
          simp only [he] at h
          cases hv : detect g fuel { done := st.done, inProgress := id :: st.inProgress } p with
          | none => simp [hv] at h
          | some r =>
            cases r with
            | ok st' => simp [hv] at h
            | error path' =>
              simp only [hv, Option.some.injEq, Except.error.injEq] at h
              subst h
              apply ih { done := st.done, inProgress := id :: st.inProgress } p path'
                (List.nodup_cons.mpr ⟨hp, hn⟩) _ hv
              simp only [List.reverse_cons]
              rw [List.chain'_append]
              refine ⟨hc, List.chain'_singleton _, ?_⟩
              intro x hx y hy
              have hx' : id = x := by
                simpa [List.getLast?_append, Option.or] using hx
              simp only [List.head?_cons, Option.mem_def, Option.some.injEq] at hy
              subst hx'; subst hy
              exact he

theorem detectAll_cycle (g : Graph) (fuel : Nat) :
    ∀ (ids : List Identity) (st : WalkState) (path : List Identity), st.inProgress = [] →
      detectAll g fuel st ids = some (Except.error path) →
      path.Nodup ∧ ∃ hd rest, path = hd :: rest ∧
        List.Chain' (fun x y => edgeOf g x = some y) (path ++ [hd]) := by
  intro ids
  induction ids with
  | nil => intro st path _ h; simp [detectAll] at h
  | cons id ids ih =>
    intro st path hs h
    rw [detectAll] at h
    cases hv : detect g fuel st id with
    | none => simp [hv] at h
    | some r =>
      cases r with
      | error path' =>
        simp only [hv, Option.some.injEq, Except.error.injEq] at h
        subst h
        exact detect_cycle g fuel st id path' (by rw [hs]; exact List.nodup_nil)
          (by rw [hs]; exact List.chain'_singleton _) hv
      | ok st1 =>
        simp only [hv] at h
        exact ih st1 path ((detect_inProgress g fuel st id st1 hv).trans hs) h

/-- A successful walk marks its identity done and keeps the invariant. -/
theorem detect_ok (g : Graph) :
    ∀ (fuel : Nat) (st : WalkState) (id : Identity) (st' : WalkState),
      InvG g st.done → detect g fuel st id = some (Except.ok st') →
      InvG g st'.done ∧ id ∈ st'.done ∧ ∀ x ∈ st.done, x ∈ st'.done := by
  intro fuel
  induction fuel with
  | zero => intro st id st' _ h; simp [detect] at h
  | succ fuel ih =>
    intro st id st' hI h
    rw [detect] at h
    by_cases hd : id ∈ st.done
    · simp only [hd, if_true, Option.some.injEq, Except.ok.injEq] at h
      subst h
      exact ⟨hI, hd, fun _ hx => hx⟩
    · simp only [hd, if_false] at h
      by_cases hp : id ∈ st.inProgress
      · simp [hp] at h
      · simp only [hp, if_false] at h
        cases he : edgeOf g id with
        | none =>
          simp only [he, Option.some.injEq, Except.ok.injEq] at h
          subst h
          refine ⟨?_, List.mem_cons_self _ _, fun x hx => List.mem_cons_of_mem _ hx⟩
          intro x hx
          rcases List.mem_cons.mp hx with h1 | h1
          · exact ⟨1, by rw [h1]; simp [chainEnds, he]⟩
          · exact hI x h1
        | some p =>
          simp only [he] at h
          cases hv : detect g fuel { done := st.done, inProgress := id :: st.inProgress } p with
          | none => simp [hv] at h
          | some r =>
            cases r with
            | error path => simp [hv] at h
            | ok st1 =>
              simp only [hv, Option.some.injEq, Except.ok.injEq] at h
              subst h
              obtain ⟨h1, h2, h3⟩ :=
                ih { done := st.done, inProgress := id :: st.inProgress } p st1 hI hv
              refine ⟨?_, List.mem_cons_self _ _,
                fun x hx => List.mem_cons_of_mem _ (h3 x hx)⟩
              intro x hx
              rcases List.mem_cons.mp hx with h4 | h4
              · obtain ⟨n, hn⟩ := h1 p h2
                exact ⟨n + 1, by rw [h4]; simp [chainEnds, he, hn]⟩
              · exact h1 x h4

theorem detectAll_ok (g : Graph) (fuel : Nat) :
    ∀ (ids : List Identity) (st st' : WalkState),
      InvG g st.done → detectAll g fuel st ids = some (Except.ok st') →
      InvG g st'.done ∧ (∀ x ∈ ids, x ∈ st'.done) ∧ ∀ x ∈ st.done, x ∈ st'.done := by
  intro ids
  induction ids with
  | nil =>
    intro st st' hI h
    simp only [detectAll, Option.some.injEq, Except.ok.injEq] at h
    subst h
    exact ⟨hI, by simp, fun _ hx => hx⟩
  | cons id ids ih =>
    intro st st' hI h
    rw [detectAll] at h
    cases hv : detect g fuel st id with
    | none => simp [hv] at h
    | some r =>
      cases r with
      | error path => simp [hv] at h
      | ok st1 =>
        simp only [hv] at h
        obtain ⟨h1, h2, h3⟩ := detect_ok g fuel st id st1 hI hv
        obtain ⟨k1, k2, k3⟩ := ih st1 st' h1 h
        refine ⟨k1, ?_, fun x hx => k3 x (h3 x hx)⟩
        intro x hx
        rcases List.mem_cons.mp hx with h4 | h4
        · rw [h4]; exact k3 id h2
        · exact k2 x h4

theorem chainEnds_iter (g : Graph) :
    ∀ (j n : Nat) (id id' : Identity), chainEnds g n id = true →
      iterEdge g j id = some id' → j < n ∧ chainEnds g (n - j) id' = true := by
  intro j
  induction j with
  | zero =>
    intro n id id' hr hn
    simp only [iterEdge, Option.some.injEq] at hn
    subst hn
    cases n with
    | zero => simp [chainEnds] at hr
    | succ n => exact ⟨Nat.succ_pos _, hr⟩
  | succ j ih =>
    intro n id id' hr hn
    cases n with
    | zero => simp [chainEnds] at hr
    | succ n =>
      rw [iterEdge] at hn
      rw [chainEnds] at hr
      cases he : edgeOf g id with
      | none => simp [he] at hn
      | some p =>
        simp only [he] at hn hr
        obtain ⟨h1, h2⟩ := ih n p id' hr hn
        refine ⟨by omega, ?_⟩
        have : n + 1 - (j + 1) = n - j := by omega
        rw [this]; exact h2

theorem no_self_edge_chain (g : Graph) (id : Identity) (k : Nat)
    (hk : iterEdge g (k + 1) id = some id) :
    ∀ n, chainEnds g n id = true → False := by
  intro n
  induction n using Nat.strong_induction_on with
  | _ n ih =>
    intro hr
    obtain ⟨h1, h2⟩ := chainEnds_iter g (k + 1) n id id hr hk
    exact ih (n - (k + 1)) (by omega) h2

/-- A chain of edges that closes is found by iterating the edges. -/
theorem iterEdge_of_chain (g : Graph) :
    ∀ (l : List Identity) (a b : Identity),
      List.Chain' (fun x y => edgeOf g x = some y) (a :: (l ++ [b])) →
      iterEdge g (l.length + 1) a = some b := by
  intro l
  induction l with
  | nil =>
    intro a b h
    have hab : edgeOf g a = some b := by
      simpa [List.chain'_cons] using h
    simp [iterEdge, hab]
  | cons x xs ih =>
    intro a b h
    rw [List.cons_append, List.chain'_cons] at h
    rw [List.length_cons, iterEdge, h.1]
    exact ih x b h.2

/-- The graph has a cycle exactly when the detection reports one; what it
reports is a full cycle. -/
theorem findCycle_spec (g : Graph) :
    ((∃ id k, iterEdge g (k + 1) id = some id) →
      ∃ path, findCycle g = some (some path)) ∧
    (∀ path, findCycle g = some (some path) →
      path.Nodup ∧ (∃ hd rest, path = hd :: rest ∧
        List.Chain' (fun x y => edgeOf g x = some y) (path ++ [hd])) ∧
      ∃ id k, iterEdge g (k + 1) id = some id) := by
  constructor
  · rintro ⟨id, k, hk⟩
    obtain ⟨r, hr⟩ := findCycle_some g
    cases r with
    | some path => exact ⟨path, hr⟩
    | none =>
      exfalso
      unfold findCycle at hr
      cases hv : detectAll g (g.length + 1) { done := [], inProgress := [] }
          (g.map Prod.fst) with
      | none => simp [hv] at hr
      | some r =>
        cases r with
        | error path => simp [hv] at hr
        | ok st =>
          obtain ⟨h1, h2, _⟩ := detectAll_ok g _ _ _ st (by intro x hx; simp at hx) hv
          have hedge : ∃ p, edgeOf g id = some p := by
            rw [iterEdge] at hk
            cases he : edgeOf g id with
            | none => simp [he] at hk
            | some p => exact ⟨p, rfl⟩
          obtain ⟨p, hp⟩ := hedge
          obtain ⟨n, hn⟩ := h1 id (h2 id (edgeOf_some_mem g id p hp))
          exact no_self_edge_chain g id k hk n hn
  · intro path h
    unfold findCycle at h
    cases hv : detectAll g (g.length + 1) { done := [], inProgress := [] }
        (g.map Prod.fst) with
    | none => simp [hv] at h
    | some r =>
      cases r with
      | ok st => simp [hv] at h
      | error path' =>
        simp only [hv, Option.some.injEq] at h
        subst h
        obtain ⟨h1, hd, rest, h2, h3⟩ := detectAll_cycle g _ _ _ path' rfl hv
        refine ⟨h1, ⟨hd, rest, h2, h3⟩, hd, rest.length, ?_⟩
        subst h2
        exact iterEdge_of_chain g rest hd hd (by simpa using h3)

end Detection

/-! ## Theorems, part II: the declared ancestor -/

section Ancestor

theorem ancestorOf_ok_none (all : List VersionEntry) (e : VersionEntry)
    (h : ancestorOf all e = Except.ok none) : e.inheritsFrom = none := by
  unfold ancestorOf at h
  cases hi : e.inheritsFrom with
  | none => rfl
  | some l =>
    simp only [hi] at h
    cases hf : findEntry all { platform := e.platform, label := l } with
    | none =>
      simp only [hf] at h
      split at h <;> cases h
    | some a => simp [hf] at h

theorem ancestorOf_ok_some (all : List VersionEntry) (e a : VersionEntry)
    (h : ancestorOf all e = Except.ok (some a)) :
    ∃ l, e.inheritsFrom = some l ∧
      findEntry all { platform := e.platform, label := l } = some a := by
  unfold ancestorOf at h
  cases hi : e.inheritsFrom with
  | none => simp [hi] at h
  | some l =>
    simp only [hi] at h
    cases hf : findEntry all { platform := e.platform, label := l } with
    | none =>
      simp only [hf] at h
      split at h <;> cases h
    | some b =>
      simp only [hf, Except.ok.injEq, Option.some.injEq] at h
      subst h
      exact ⟨l, rfl, hf⟩

theorem ancestorOf_of_root (all : List VersionEntry) (e : VersionEntry)
    (hi : e.inheritsFrom = none) : ancestorOf all e = Except.ok none := by
  unfold ancestorOf; rw [hi]

theorem ancestorOf_of_found (all : List VersionEntry) (e a : VersionEntry) (l : String)
    (hi : e.inheritsFrom = some l)
    (hf : findEntry all { platform := e.platform, label := l } = some a) :
    ancestorOf all e = Except.ok (some a) := by
  unfold ancestorOf; rw [hi]; simp only [hf]

end Ancestor

/-! ## Theorems, part II: the depth-first resolution -/

section Resolver

theorem findEntry_mem {all : List VersionEntry} {id : Identity} {e : VersionEntry}
    (h : findEntry all id = some e) : e ∈ all ∧ e.identity = id := by
  unfold findEntry at h
  exact ⟨List.mem_of_find?_eq_some h, by simpa using List.find?_some h⟩

theorem unique_entry {all : List VersionEntry} (hU : UniqueIdentities all)
    {e e' : VersionEntry} (he : e ∈ all) (he' : e' ∈ all)
    (hid : e.identity = e'.identity) : e = e' :=
  List.inj_on_of_nodup_map hU he he' hid

theorem findEntry_self {all : List VersionEntry} (hU : UniqueIdentities all)
    {e : VersionEntry} (he : e ∈ all) : findEntry all e.identity = some e := by
  cases h : findEntry all e.identity with
  | none =>
    unfold findEntry at h
    rw [List.find?_eq_none] at h
    exact absurd (by simp) (h e he)
  | some e' =>
    obtain ⟨h1, h2⟩ := findEntry_mem h
    rw [unique_entry hU h1 he h2]

theorem Ext_refl (d : List (Identity × Table)) : Ext d d := fun _ _ h => h

theorem Ext_trans {d1 d2 d3 : List (Identity × Table)} (h12 : Ext d1 d2) (h23 : Ext d2 d3) :
    Ext d1 d3 := fun id t h => h23 id t (h12 id t h)

theorem Ext_cons {d : List (Identity × Table)} {id0 : Identity} (t0 : Table)
    (h : lookupTable d id0 = none) : Ext d ((id0, t0) :: d) := by
  intro id t hl
  unfold lookupTable
  by_cases hid : id0 = id
  · subst hid; rw [h] at hl; cases hl
  · rw [if_neg hid]; exact hl

theorem Good_mono {all : List VersionEntry} {d d' : List (Identity × Table)}
    {e : VersionEntry} {t : Table} (hE : Ext d d') (h : Good all d e t) : Good all d' e t := by
  unfold Good at h ⊢
  cases hi : e.inheritsFrom with
  | none => rw [hi] at h; simpa using h
  | some l =>
    rw [hi] at h
    obtain ⟨a, ta, h1, h2, h3⟩ := h
    exact ⟨a, ta, h1, hE _ _ h2, h3⟩

theorem Inv_cons {all : List VersionEntry} {d : List (Identity × Table)} {e0 : VersionEntry}
    {t0 : Table} (hI : Inv all d) (hfresh : lookupTable d e0.identity = none)
    (hmem : e0 ∈ all) (hnd : (keys t0).Nodup) (hgood : Good all d e0 t0)
    (hroot : ∃ n, reachesRoot all n e0 = true) :
    Inv all ((e0.identity, t0) :: d) := by
  intro id t hl
  have hE := Ext_cons t0 hfresh
  unfold lookupTable at hl
  by_cases hid : e0.identity = id
  · rw [if_pos hid] at hl
    cases hl
    exact ⟨hnd, e0, hmem, hid, Good_mono hE hgood, hroot⟩
  · rw [if_neg hid] at hl
    obtain ⟨h1, e, h2, h3, h4, h5⟩ := hI id t hl
    exact ⟨h1, e, h2, h3, Good_mono hE h4, h5⟩

theorem keys_nil_nodup : (keys []).Nodup := by simp [keys]

/-- A successful visit memoizes the table it returns, keeps what was
memoized, and keeps the invariant. -/
theorem visit_ok (all : List VersionEntry) (hU : UniqueIdentities all) :
    ∀ (fuel : Nat) (st : DfsState) (e : VersionEntry) (st' : DfsState) (t : Table),
      e ∈ all → Inv all st.done → Disj st →
      visit all fuel st e = some (Except.ok (st', t)) →
      st'.inProgress = st.inProgress ∧ Inv all st'.done ∧ Disj st' ∧
        Ext st.done st'.done ∧ lookupTable st'.done e.identity = some t := by
  intro fuel
  induction fuel with
  | zero => intro st e st' t _ _ _ h; simp [visit] at h
  | succ fuel ih =>
    intro st e st' t he hI hD h
    rw [visit] at h
    unfold DfsState.mark at h
    cases hl : lookupTable st.done e.identity with
    | some t0 =>
      simp only [hl] at h
      cases h
      exact ⟨rfl, hI, hD, Ext_refl _, hl⟩
    | none =>
      simp only [hl] at h
      by_cases hp : e.identity ∈ st.inProgress
      · simp [hp] at h
      · simp only [hp, if_false] at h
        cases ha : ancestorOf all e with
        | error err => simp [ha] at h
        | ok oa =>
          cases oa with
          | none =>
            have hi := ancestorOf_ok_none all e ha
            simp only [ha] at h
            cases h
            have hgood : Good all st.done e (applyDecls [] e.decls) := by
              unfold Good; rw [hi]
            refine ⟨rfl, Inv_cons hI hl he (keys_applyDecls_nodup _ _ keys_nil_nodup) hgood
              ⟨1, by simp [reachesRoot, hi]⟩, ?_, Ext_cons _ hl, by simp [lookupTable]⟩
            intro id hid
            have hne : e.identity ≠ id := fun hh => hp (hh ▸ hid)
            simp only [lookupTable, if_neg hne]
            exact hD id hid
          | some a =>
            obtain ⟨l, hi, hf⟩ := ancestorOf_ok_some all e a ha
            simp only [ha] at h
            have ha' := (findEntry_mem hf).1
            have hD1 : Disj { st with inProgress := e.identity :: st.inProgress } := by
              intro id hid
              rcases List.mem_cons.mp hid with h1 | h1
              · rw [h1]; exact hl
              · exact hD id h1
            cases hv : visit all fuel { st with inProgress := e.identity :: st.inProgress } a with
            | none => simp [hv] at h
            | some r =>
              cases r with
              | error err => simp [hv] at h
              | ok p =>
                obtain ⟨st2, ta⟩ := p
                simp only [hv] at h
                cases h
                obtain ⟨h1, h2, h3, h4, h5⟩ :=
                  ih { done := st.done, inProgress := e.identity :: st.inProgress } a st2 ta
                    ha' hI hD1 hv
                have hfresh : lookupTable st2.done e.identity = none :=
                  h3 e.identity (by rw [h1]; exact List.mem_cons_self _ _)
                obtain ⟨hnd, a', ha2, hid', _, n, hn⟩ := h2 _ _ h5
                have haa : a' = a := unique_entry hU ha2 ha' hid'
                subst haa
                have hgood : Good all st2.done e (applyDecls ta e.decls) := by
                  unfold Good; rw [hi]; exact ⟨a', ta, hf, h5, rfl⟩
                refine ⟨rfl, Inv_cons h2 hfresh he (keys_applyDecls_nodup _ _ hnd) hgood
                  ⟨n + 1, by simp [reachesRoot, hi, hf, hn]⟩, ?_,
                  Ext_trans h4 (Ext_cons _ hfresh), by simp [lookupTable]⟩
                intro id hid
                have hne : e.identity ≠ id := fun hh => hp (hh ▸ hid)
                simp only [lookupTable, if_neg hne]
                exact h3 id (by rw [h1]; exact List.mem_cons_of_mem _ hid)

end Resolver

section GraphOfEntries

theorem edgeOf_buildGraph (all : List VersionEntry) (id : Identity) :
    edgeOf (buildGraph all) id = parentId all id := by
  induction all with
  | nil => rfl
  | cons e es ih =>
    unfold parentId findEntry at ih ⊢
    unfold buildGraph at ih ⊢
    rw [List.map_cons, edgeOf, List.find?_cons]
    by_cases he : e.identity = id
    · simp [he]
    · simp only [he, if_false, decide_False]
      exact ih

theorem parentId_some (all : List VersionEntry) (id y : Identity)
    (h : parentId all id = some y) :
    ∃ e l, findEntry all id = some e ∧ e.inheritsFrom = some l ∧
      y = { platform := e.platform, label := l } := by
  unfold parentId at h
  cases hf : findEntry all id with
  | none => simp [hf] at h
  | some e =>
    simp only [hf] at h
    cases hi : e.inheritsFrom with
    | none => simp [hi] at h
    | some l =>
      simp only [hi, Option.map_some', Option.some.injEq] at h
      exact ⟨e, l, rfl, hi, h.symm⟩

theorem nthAncestor_canonical (all : List VersionEntry) :
    ∀ (k : Nat) (e a : VersionEntry), nthAncestor all (k + 1) e = some a →
      findEntry all a.identity = some a := by
  intro k
  induction k with
  | zero =>
    intro e a h
    rw [nthAncestor] at h
    cases hi : e.inheritsFrom with
    | none => simp [hi] at h
    | some l =>
      simp only [hi] at h
      cases hf : findEntry all { platform := e.platform, label := l } with
      | none => simp [hf] at h
      | some b =>
        simp only [hf, nthAncestor, Option.some.injEq] at h
        subst h
        rw [(findEntry_mem hf).2]; exact hf
  | succ k ih =>
    intro e a h
    rw [nthAncestor] at h
    cases hi : e.inheritsFrom with
    | none => simp [hi] at h
    | some l =>
      simp only [hi] at h
      cases hf : findEntry all { platform := e.platform, label := l } with
      | none => simp [hf] at h
      | some b =>
        simp only [hf] at h
        exact ih b a h

theorem iterEdge_of_nthAncestor (all : List VersionEntry) :
    ∀ (k : Nat) (e a : VersionEntry), findEntry all e.identity = some e →
      nthAncestor all k e = some a →
      iterEdge (buildGraph all) k e.identity = some a.identity := by
  intro k
  induction k with
  | zero =>
    intro e a _ h
    simp only [nthAncestor, Option.some.injEq] at h
    subst h; rfl
  | succ k ih =>
    intro e a hc h
    rw [nthAncestor] at h
    cases hi : e.inheritsFrom with
    | none => simp [hi] at h
    | some l =>
      simp only [hi] at h
      cases hf : findEntry all { platform := e.platform, label := l } with
      | none => simp [hf] at h
      | some b =>
        simp only [hf] at h
        have hb := (findEntry_mem hf).2
        have hedge : edgeOf (buildGraph all) e.identity = some b.identity := by
          rw [edgeOf_buildGraph]
          unfold parentId
          rw [hc]
          simp only [hi, Option.map_some']
          rw [hb]
        rw [iterEdge, hedge]
        exact ih b a (by rw [hb]; exact hf) h

theorem nthAncestor_of_iterEdge (all : List VersionEntry) :
    ∀ (k : Nat) (id id' : Identity) (e e' : VersionEntry),
      findEntry all id = some e → findEntry all id' = some e' →
      iterEdge (buildGraph all) k id = some id' → nthAncestor all k e = some e' := by
  intro k
  induction k with
  | zero =>
    intro id id' e e' he he' h
    simp only [iterEdge, Option.some.injEq] at h
    subst h
    rw [he] at he'
    simpa [nthAncestor] using he'
  | succ k ih =>
    intro id id' e e' he he' h
    rw [iterEdge] at h
    cases hedge : edgeOf (buildGraph all) id with
    | none => simp [hedge] at h
    | some y =>
      simp only [hedge] at h
      rw [edgeOf_buildGraph] at hedge
      obtain ⟨e0, l, h1, h2, h3⟩ := parentId_some all id y hedge
      rw [he] at h1
      cases h1
      have hy : ∃ b, findEntry all y = some b := by
        cases k with
        | zero =>
          simp only [iterEdge, Option.some.injEq] at h
          subst h
          exact ⟨e', he'⟩
        | succ k =>
          rw [iterEdge] at h
          cases hedge2 : edgeOf (buildGraph all) y with
          | none => simp [hedge2] at h
          | some z =>
            rw [edgeOf_buildGraph] at hedge2
            obtain ⟨b, _, hb, _, _⟩ := parentId_some all y z hedge2
            exact ⟨b, hb⟩
      obtain ⟨b, hb⟩ := hy
      rw [nthAncestor]
      simp only [h2]
      rw [← h3, hb]
      exact ih y id' b e' hb he' h

/-- The entries have an inheritance cycle exactly when their dependency graph
has one. -/
theorem hasCycle_iff_graph (all : List VersionEntry) :
    HasCycle all ↔ ∃ id k, iterEdge (buildGraph all) (k + 1) id = some id := by
  constructor
  · rintro ⟨e, _, k, hk, hcyc⟩
    obtain ⟨k', rfl⟩ : ∃ k', k = k' + 1 := ⟨k - 1, by omega⟩
    have hc := nthAncestor_canonical all k' e e hcyc
    exact ⟨e.identity, k', iterEdge_of_nthAncestor all (k' + 1) e e hc hcyc⟩
  · rintro ⟨id, k, hk⟩
    have hedge : ∃ y, edgeOf (buildGraph all) id = some y := by
      rw [iterEdge] at hk
      cases he : edgeOf (buildGraph all) id with
      | none => simp [he] at hk
      | some y => exact ⟨y, rfl⟩
    obtain ⟨y, hy⟩ := hedge
    rw [edgeOf_buildGraph] at hy
    obtain ⟨e, _, he, _, _⟩ := parentId_some all id y hy
    exact ⟨e, (findEntry_mem he).1, k + 1, Nat.succ_pos _,
      nthAncestor_of_iterEdge all (k + 1) id id e e he he hk⟩

/-- The cycle detection on the graph of the entries: it reports a cycle
exactly when the entries have one, and what it reports is a full cycle. -/
theorem findCycle_entries (all : List VersionEntry) :
    (HasCycle all → ∃ path, findCycle (buildGraph all) = some (some path)) ∧
    (¬ HasCycle all → findCycle (buildGraph all) = some none) ∧
    (∀ path, findCycle (buildGraph all) = some (some path) →
      HasCycle all ∧ path.Nodup ∧ ClosedWalk all path) := by
  have hspec := findCycle_spec (buildGraph all)
  have hthird : ∀ path, findCycle (buildGraph all) = some (some path) →
      HasCycle all ∧ path.Nodup ∧ ClosedWalk all path := by
    intro path hp
    obtain ⟨h1, ⟨hd, rest, h2, h3⟩, h4⟩ := hspec.2 path hp
    refine ⟨(hasCycle_iff_graph all).mpr h4, h1, hd, rest, h2, ?_⟩
    refine List.Chain'.imp ?_ h3
    intro x y hxy
    rw [← edgeOf_buildGraph]; exact hxy
  refine ⟨fun hC => hspec.1 ((hasCycle_iff_graph all).mp hC), ?_, hthird⟩
  intro hAc
  obtain ⟨r, hr⟩ := findCycle_some (buildGraph all)
  cases r with
  | none => exact hr
  | some path => exact absurd (hthird path hr).1 hAc

end GraphOfEntries

section ResolverRuns

theorem visitAll_ok (all : List VersionEntry) (hU : UniqueIdentities all) (fuel : Nat) :
    ∀ (es : List VersionEntry) (st st' : DfsState),
      (∀ e ∈ es, e ∈ all) → Inv all st.done → Disj st →
      visitAll all fuel st es = some (Except.ok st') →
      st'.inProgress = st.inProgress ∧ Inv all st'.done ∧ Ext st.done st'.done ∧
        ∀ e ∈ es, ∃ t, lookupTable st'.done e.identity = some t := by
  intro es
  induction es with
  | nil =>
    intro st st' _ hI _ h
    simp only [visitAll, Option.some.injEq, Except.ok.injEq] at h
    subst h
    exact ⟨rfl, hI, Ext_refl _, by simp⟩
  | cons e es ih =>
    intro st st' hsub hI hD h
    rw [visitAll] at h
    cases hv : visit all fuel st e with
    | none => simp [hv] at h
    | some r =>
      cases r with
      | error err => simp [hv] at h
      | ok p =>
        obtain ⟨st1, t⟩ := p
        simp only [hv] at h
        obtain ⟨h1, h2, h3, h4, h5⟩ :=
          visit_ok all hU fuel st e st1 t (hsub e (List.mem_cons_self _ _)) hI hD hv
        obtain ⟨k1, k2, k3, k4⟩ :=
          ih st1 st' (fun x hx => hsub x (List.mem_cons_of_mem _ hx)) h2 h3 h
        refine ⟨k1.trans h1, k2, Ext_trans h4 k3, ?_⟩
        intro x hx
        rcases List.mem_cons.mp hx with hx | hx
        · subst hx; exact ⟨t, k3 _ _ h5⟩
        · exact k4 x hx

theorem Inv_nil (all : List VersionEntry) : Inv all [] := by
  intro id t h; simp [lookupTable] at h

/-- What a successful `resolve` returns: the tables of a final state in which
every entry is done and the invariant holds. -/
theorem resolve_ok (all : List VersionEntry) (hU : UniqueIdentities all) (reg : Registry)
    (h : resolve all = some (Except.ok reg)) :
    ∃ done, reg = collect done all ∧ Inv all done ∧
      ∀ e ∈ all, ∃ t, lookupTable done e.identity = some t := by
  unfold resolve at h
  cases hg : findCycle (buildGraph all) with
  | none => simp [hg] at h
  | some oc =>
    cases oc with
    | some path => simp [hg] at h
    | none =>
    simp only [hg] at h
    cases hv : visitAll all (all.length + 1) { done := [], inProgress := [] } all with
    | none => simp [hv] at h
    | some r =>
      cases r with
      | error err => simp [hv] at h
      | ok st =>
        simp only [hv, Option.some.injEq, Except.ok.injEq] at h
        obtain ⟨_, h2, _, h4⟩ := visitAll_ok all hU _ all _ st (fun _ he => he)
          (Inv_nil all) (by intro id hid; simp at hid) hv
        exact ⟨st.done, h.symm, h2, h4⟩

theorem get_collect (all : List VersionEntry) (hU : UniqueIdentities all)
    (done : List (Identity × Table)) (e : VersionEntry) (t : Table) (he : e ∈ all)
    (ht : lookupTable done e.identity = some t) :
    Registry.get (collect done all) e.platform e.label =
      Except.ok { label := e.label, platform := e.platform, table := t } := by
  unfold Registry.get collect
  rw [List.find?_filterMap]
  have hfind : List.find? (fun a => Option.any
      (fun r => decide (r.identity = { platform := e.platform, label := e.label }))
      ((lookupTable done a.identity).map (fun t =>
        ({ label := a.label, platform := a.platform, table := t } : ResolvedVersion)))) all
      = some e := by
    induction all with
    | nil => simp at he
    | cons x xs ih =>
      rw [List.find?_cons]
      by_cases hx : x = e
      · subst hx
        simp [ht, ResolvedVersion.identity]
      · have hxe : x.identity ≠ e.identity := by
          intro hh
          exact hx (unique_entry hU (List.mem_cons_self _ _) he hh)
        have hU' : UniqueIdentities xs := by
          unfold UniqueIdentities at hU ⊢
          simp only [List.map_cons, List.nodup_cons] at hU
          exact hU.2
        have he' : e ∈ xs := by
          rcases List.mem_cons.mp he with h1 | h1
          · exact absurd h1.symm hx
          · exact h1
        have hfalse : Option.any
            (fun r => decide (r.identity = { platform := e.platform, label := e.label }))
            ((lookupTable done x.identity).map (fun t =>
              ({ label := x.label, platform := x.platform, table := t } : ResolvedVersion)))
            = false := by
          cases lookupTable done x.identity with
          | none => rfl
          | some tx =>
            simp only [Option.map_some', Option.any_some, ResolvedVersion.identity,
              decide_eq_false_iff_not]
            exact hxe
        rw [hfalse]
        exact ih hU' he'
  rw [hfind]
  simp [ht]

end ResolverRuns

section RegistryBuild

/-- The registry is built only from entries with unique identities, and then
it is what the resolver returns; a duplicated identity is a `SchemaError`. -/
theorem build_spec (all : List VersionEntry) :
    (UniqueIdentities all → Registry.build all = resolve all) ∧
    (¬ UniqueIdentities all →
      Registry.build all = some (Except.error (Error.SchemaError "duplicate identity"))) := by
  unfold Registry.build UniqueIdentities
  constructor
  · intro h; rw [if_pos h]
  · intro h; rw [if_neg h]

end RegistryBuild

section Termination

theorem visit_inProgress (all : List VersionEntry) (fuel : Nat) (st : DfsState)
    (e : VersionEntry) (st' : DfsState) (t : Table)
    (h : visit all fuel st e = some (Except.ok (st', t))) :
    st'.inProgress = st.inProgress := by
  cases fuel with
  | zero => simp [visit] at h
  | succ fuel =>
    rw [visit] at h
    split at h
    · cases h; rfl
    · simp at h
    · split at h
      · simp at h
      · cases h; rfl
      · split at h
        · simp at h
        · simp at h
        · cases h; rfl

theorem stack_length_le (all : List VersionEntry) (s : List Identity) (hn : s.Nodup)
    (hs : ∀ id ∈ s, id ∈ all.map VersionEntry.identity) : s.length ≤ all.length := by
  have h := (List.subperm_of_subset hn hs).length_le
  simpa using h

/-- The recursion bound is never reached: the identities in progress are
pairwise different identities of entries. -/
theorem visit_some (all : List VersionEntry) :
    ∀ (fuel : Nat) (st : DfsState) (e : VersionEntry),
      e ∈ all → st.inProgress.Nodup →
      (∀ id ∈ st.inProgress, id ∈ all.map VersionEntry.identity) →
      all.length + 1 ≤ fuel + st.inProgress.length →
      ∃ r, visit all fuel st e = some r := by
  intro fuel
  induction fuel with
  | zero =>
    intro st e _ hn hs hf
    have := stack_length_le all st.inProgress hn hs
    omega
  | succ fuel ih =>
    intro st e he hn hs hf
    rw [visit]
    unfold DfsState.mark
    cases hl : lookupTable st.done e.identity with
    | some t0 => exact ⟨_, rfl⟩
    | none =>
      by_cases hp : e.identity ∈ st.inProgress
      · simp only [hp, if_true]; exact ⟨_, rfl⟩
      · simp only [hp, if_false]
        cases ha : ancestorOf all e with
        | error err => exact ⟨_, rfl⟩
        | ok oa =>
          cases oa with
          | none => exact ⟨_, rfl⟩
          | some a =>
            have hamem : a ∈ all := by
              obtain ⟨l, _, hf'⟩ := ancestorOf_ok_some all e a ha
              exact (findEntry_mem hf').1
            obtain ⟨r, hr⟩ := ih { done := st.done, inProgress := e.identity :: st.inProgress }
              a hamem (List.nodup_cons.mpr ⟨hp, hn⟩)
              (by
                intro id hid
                rcases List.mem_cons.mp hid with h1 | h1
                · rw [h1]; exact List.mem_map_of_mem _ he
                · exact hs id h1)
              (by simp only [List.length_cons]; omega)
            simp only [hr]
            cases r with
            | error err => exact ⟨_, rfl⟩
            | ok p => exact ⟨_, rfl⟩

theorem visitAll_some (all : List VersionEntry) (fuel : Nat) (hf : all.length + 1 ≤ fuel) :
    ∀ (es : List VersionEntry) (st : DfsState), (∀ e ∈ es, e ∈ all) → st.inProgress = [] →
      ∃ r, visitAll all fuel st es = some r := by
  intro es
  induction es with
  | nil => intro st _ _; exact ⟨_, rfl⟩
  | cons e es ih =>
    intro st hsub hs
    rw [visitAll]
    obtain ⟨r, hr⟩ := visit_some all fuel st e (hsub e (List.mem_cons_self _ _))
      (by rw [hs]; exact List.nodup_nil) (by rw [hs]; intro id hid; simp at hid)
      (by rw [hs]; simpa using hf)
    rw [hr]
    cases r with
    | error err => exact ⟨_, rfl⟩
    | ok p =>
      obtain ⟨st1, t⟩ := p
      simp only []
      exact ih st1 (fun x hx => hsub x (List.mem_cons_of_mem _ hx))
        ((visit_inProgress all fuel st e st1 t hr).trans hs)

/-- The resolver always returns: a registry or an error. -/
theorem resolve_some (all : List VersionEntry) : ∃ r, resolve all = some r := by
  unfold resolve
  obtain ⟨c, hc⟩ := findCycle_some (buildGraph all)
  rw [hc]
  cases c with
  | some path => exact ⟨_, rfl⟩
  | none =>
    obtain ⟨r, hr⟩ := visitAll_some all (all.length + 1) (le_refl _) all
      { done := [], inProgress := [] } (fun _ h => h) rfl
    simp only [hr]
    cases r with
    | error err => exact ⟨_, rfl⟩
    | ok st => exact ⟨_, rfl⟩

end Termination

section Completeness

theorem reachesRoot_nth (all : List VersionEntry) :
    ∀ (j n : Nat) (e a : VersionEntry), reachesRoot all n e = true →
      nthAncestor all j e = some a → j < n ∧ reachesRoot all (n - j) a = true := by
  intro j
  induction j with
  | zero =>
    intro n e a hr hn
    simp only [nthAncestor, Option.some.injEq] at hn
    subst hn
    cases n with
    | zero => simp [reachesRoot] at hr
    | succ n => exact ⟨Nat.succ_pos _, hr⟩
  | succ j ih =>
    intro n e a hr hn
    cases n with
    | zero => simp [reachesRoot] at hr
    | succ n =>
      rw [nthAncestor] at hn
      rw [reachesRoot] at hr
      cases hi : e.inheritsFrom with
      | none => simp [hi] at hn
      | some l =>
        simp only [hi] at hn hr
        cases hf : findEntry all { platform := e.platform, label := l } with
        | none => simp [hf] at hn
        | some b =>
          simp only [hf] at hn hr
          obtain ⟨h1, h2⟩ := ih n b a hr hn
          refine ⟨by omega, ?_⟩
          have : n + 1 - (j + 1) = n - j := by omega
          rw [this]; exact h2

theorem no_self_ancestor (all : List VersionEntry) (e : VersionEntry) (k : Nat)
    (hk : nthAncestor all (k + 1) e = some e) :
    ∀ n, reachesRoot all n e = true → False := by
  intro n
  induction n using Nat.strong_induction_on with
  | _ n ih =>
    intro hr
    obtain ⟨h1, h2⟩ := reachesRoot_nth all (k + 1) n e e hr hk
    exact ih (n - (k + 1)) (by omega) h2

theorem nthAncestor_mem (all : List VersionEntry) :
    ∀ (k : Nat) (e a : VersionEntry), e ∈ all → nthAncestor all k e = some a → a ∈ all := by
  intro k
  induction k with
  | zero =>
    intro e a he h
    simp only [nthAncestor, Option.some.injEq] at h
    subst h; exact he
  | succ k ih =>
    intro e a he h
    rw [nthAncestor] at h
    cases hi : e.inheritsFrom with
    | none => simp [hi] at h
    | some l =>
      simp only [hi] at h
      cases hf : findEntry all { platform := e.platform, label := l } with
      | none => simp [hf] at h
      | some b =>
        simp only [hf] at h
        exact ih b a (findEntry_mem hf).1 h

/-- A visit of an entry whose chain ends at a root, none of whose ancestors
is in progress, does not fail. -/
theorem visit_no_error (all : List VersionEntry) (hU : UniqueIdentities all) :
    ∀ (fuel n : Nat) (st : DfsState) (e : VersionEntry) (err : Error),
      e ∈ all → reachesRoot all n e = true →
      (∀ k a, nthAncestor all k e = some a → a.identity ∉ st.inProgress) →
      visit all fuel st e ≠ some (Except.error err) := by
  intro fuel
  induction fuel with
  | zero => intro n st e err _ _ _ h; simp [visit] at h
  | succ fuel ih =>
    intro n st e err he hr hs h
    rw [visit] at h
    unfold DfsState.mark at h
    cases hl : lookupTable st.done e.identity with
    | some t0 => simp [hl] at h
    | none =>
      simp only [hl] at h
      have hp : e.identity ∉ st.inProgress := hs 0 e rfl
      simp only [hp, if_false] at h
      cases n with
      | zero => simp [reachesRoot] at hr
      | succ n =>
        rw [reachesRoot] at hr
        cases hi : e.inheritsFrom with
        | none =>
          rw [ancestorOf_of_root all e hi] at h
          simp at h
        | some l =>
          simp only [hi] at hr
          cases hf : findEntry all { platform := e.platform, label := l } with
          | none => simp [hf] at hr
          | some a =>
            simp only [hf] at hr
            rw [ancestorOf_of_found all e a l hi hf] at h
            simp only [] at h
            have ha := (findEntry_mem hf).1
            have hstep : ∀ k b, nthAncestor all k a = some b →
                nthAncestor all (k + 1) e = some b := by
              intro k b hb
              rw [nthAncestor]; simp only [hi, hf]; exact hb
            have hnot : ∀ err', visit all fuel
                { done := st.done, inProgress := e.identity :: st.inProgress } a ≠
                  some (Except.error err') := by
              intro err'
              apply ih n _ a err' ha hr
              intro k b hb hmem
              rcases List.mem_cons.mp hmem with h1 | h1
              · have hbe : b = e :=
                  unique_entry hU (nthAncestor_mem all k a b ha hb) he h1
                subst hbe
                exact no_self_ancestor all b k (hstep k b hb) (n + 1)
                  (by rw [reachesRoot]; simp only [hi, hf]; exact hr)
              · exact hs (k + 1) b (hstep k b hb) h1
            cases hv : visit all fuel
                { done := st.done, inProgress := e.identity :: st.inProgress } a with
            | none => simp [hv] at h
            | some r =>
              cases r with
              | error err' => exact hnot err' hv
              | ok p => simp [hv] at h

theorem visitAll_no_error (all : List VersionEntry) (hU : UniqueIdentities all)
    (hG : Grounded all) (fuel : Nat) :
    ∀ (es : List VersionEntry) (st : DfsState) (err : Error), (∀ e ∈ es, e ∈ all) →
      st.inProgress = [] → visitAll all fuel st es ≠ some (Except.error err) := by
  intro es
  induction es with
  | nil => intro st err _ _ h; simp [visitAll] at h
  | cons e es ih =>
    intro st err hsub hs h
    rw [visitAll] at h
    have he := hsub e (List.mem_cons_self _ _)
    obtain ⟨n, hn⟩ := hG e he
    have hne := fun err' => visit_no_error all hU fuel n st e err' he hn
      (by intro k a _; rw [hs]; simp)
    cases hv : visit all fuel st e with
    | none => simp [hv] at h
    | some r =>
      cases r with
      | error err' => exact hne err' hv
      | ok p =>
        obtain ⟨st1, t⟩ := p
        simp only [hv] at h
        exact ih st1 err (fun x hx => hsub x (List.mem_cons_of_mem _ hx))
          ((visit_inProgress all fuel st e st1 t hv).trans hs) h

theorem not_grounded_of_cycle (all : List VersionEntry) (hC : HasCycle all) :
    ¬ Grounded all := by
  intro hG
  obtain ⟨e, he, k, hk, hcyc⟩ := hC
  obtain ⟨n, hn⟩ := hG e he
  obtain ⟨k', rfl⟩ : ∃ k', k = k' + 1 := ⟨k - 1, by omega⟩
  exact no_self_ancestor all e k' hcyc n hn

/-- With unique identities, resolution succeeds when every chain ends at a root. -/
theorem resolve_complete (all : List VersionEntry) (hU : UniqueIdentities all)
    (hG : Grounded all) : ∃ reg, resolve all = some (Except.ok reg) := by
  have hAc : ¬ HasCycle all := fun hC => not_grounded_of_cycle all hC hG
  have hfc := (findCycle_entries all).2.1 hAc
  obtain ⟨r, hr⟩ := resolve_some all
  unfold resolve at hr ⊢
  simp only [hfc] at hr ⊢
  have hne := fun err => visitAll_no_error all hU hG (all.length + 1) all
    { done := [], inProgress := [] } err (fun _ h => h) rfl
  cases hv : visitAll all (all.length + 1) { done := [], inProgress := [] } all with
  | none => simp [hv] at hr
  | some r' =>
    cases r' with
    | error err => exact absurd hv (hne err)
    | ok st => exact ⟨_, rfl⟩

end Completeness

section Acyclic

theorem nthAncestor_add (all : List VersionEntry) :
    ∀ (i j : Nat) (e : VersionEntry),
      nthAncestor all (i + j) e = (nthAncestor all i e).bind (nthAncestor all j) := by
  intro i
  induction i with
  | zero => intro j e; simp [nthAncestor]
  | succ i ih =>
    intro j e
    have hij : i + 1 + j = (i + j) + 1 := by omega
    rw [hij, nthAncestor, nthAncestor]
    cases e.inheritsFrom with
    | none => rfl
    | some l =>
      simp only []
      cases findEntry all { platform := e.platform, label := l } with
      | none => rfl
      | some a => exact ih j a

/-- Without dangling references, a chain that has not ended after `n`
references has an entry at every distance up to `n`. -/
theorem chain_alive (all : List VersionEntry) (hND : NoDangling all) :
    ∀ (n : Nat) (e : VersionEntry), e ∈ all → reachesRoot all n e = false →
      ∀ k, k ≤ n → ∃ a, nthAncestor all k e = some a := by
  intro n
  induction n with
  | zero =>
    intro e _ _ k hk
    have : k = 0 := by omega
    subst this
    exact ⟨e, rfl⟩
  | succ n ih =>
    intro e he hr k hk
    cases k with
    | zero => exact ⟨e, rfl⟩
    | succ k =>
      rw [reachesRoot] at hr
      rw [nthAncestor]
      cases hi : e.inheritsFrom with
      | none => simp [hi] at hr
      | some l =>
        simp only [hi] at hr ⊢
        cases hf : findEntry all { platform := e.platform, label := l } with
        | none => exact absurd hf (hND e he l hi)
        | some a =>
          simp only [hf] at hr ⊢
          exact ih a (findEntry_mem hf).1 hr k (by omega)

/-- Without dangling references and without a cycle, every chain ends at a root. -/
theorem grounded_of_acyclic (all : List VersionEntry) (hND : NoDangling all)
    (hAc : ¬ HasCycle all) : Grounded all := by
  intro e he
  by_contra hno
  have hfalse : reachesRoot all all.length e = false := by
    cases h : reachesRoot all all.length e with
    | false => rfl
    | true => exact absurd ⟨all.length, h⟩ hno
  have halive := chain_alive all hND all.length e he hfalse
  have hmaps : ∀ k ∈ Finset.range (all.length + 1),
      (nthAncestor all k e).getD e ∈ all.toFinset := by
    intro k hk
    obtain ⟨a, ha⟩ := halive k (by simpa [Nat.lt_succ_iff] using hk)
    rw [ha, List.mem_toFinset]
    exact nthAncestor_mem all k e a he ha
  have hcard : all.toFinset.card < (Finset.range (all.length + 1)).card := by
    rw [Finset.card_range]
    exact Nat.lt_succ_of_le (List.toFinset_card_le all)
  obtain ⟨x, hx, y, hy, hxy, hfxy⟩ :=
    Finset.exists_ne_map_eq_of_card_lt_of_maps_to hcard hmaps
  have key : ∀ i j : Nat, i < j → j ≤ all.length →
      (nthAncestor all i e).getD e = (nthAncestor all j e).getD e → False := by
    intro i j hij hj heq
    obtain ⟨a, ha⟩ := halive i (by omega)
    obtain ⟨b, hb⟩ := halive j hj
    rw [ha, hb] at heq
    simp only [Option.getD_some] at heq
    subst heq
    have hsplit := nthAncestor_add all i (j - i) e
    have hji : i + (j - i) = j := by omega
    rw [hji, hb, ha] at hsplit
    simp only [Option.some_bind] at hsplit
    exact hAc ⟨a, nthAncestor_mem all i e a he ha, j - i, by omega, hsplit.symm⟩
  have hx' : x ≤ all.length := by simpa [Nat.lt_succ_iff] using hx
  have hy' : y ≤ all.length := by simpa [Nat.lt_succ_iff] using hy
  rcases Nat.lt_or_gt_of_ne hxy with h | h
  · exact key x y h hy' hfxy
  · exact key y x h hx' hfxy.symm

end Acyclic

section Errors

end Errors

section ThreeCycle

theorem cycle3_fwd (p x y z : String) (dx dy dz : List OffsetKind)
    (hxy : x ≠ y) (hyz : y ≠ z) (hzx : z ≠ x) :
    resolve [⟨x, p, some y, dx⟩, ⟨y, p, some z, dy⟩, ⟨z, p, some x, dz⟩] =
      some (Except.error (Error.CycleError [⟨p, x⟩, ⟨p, y⟩, ⟨p, z⟩])) := by
  have hyx : y ≠ x := fun h => hxy h.symm
  have hzy : z ≠ y := fun h => hyz h.symm
  have hxz : x ≠ z := fun h => hzx h.symm
  simp [resolve, findCycle, buildGraph, detectAll, detect, edgeOf, VersionEntry.identity,
    cyclePath, hxy, hyz, hzx, hyx, hzy, hxz]

theorem cycle3_bwd (p x y z : String) (dx dy dz : List OffsetKind)
    (hxy : x ≠ y) (hyz : y ≠ z) (hzx : z ≠ x) :
    resolve [⟨x, p, some y, dx⟩, ⟨z, p, some x, dz⟩, ⟨y, p, some z, dy⟩] =
      some (Except.error (Error.CycleError [⟨p, x⟩, ⟨p, y⟩, ⟨p, z⟩])) := by
  have hyx : y ≠ x := fun h => hxy h.symm
  have hzy : z ≠ y := fun h => hyz h.symm
  have hxz : x ≠ z := fun h => hzx h.symm
  simp [resolve, findCycle, buildGraph, detectAll, detect, edgeOf, VersionEntry.identity,
    cyclePath, hxy, hyz, hzx, hyx, hzy, hxz]

end ThreeCycle

section CyclePath

end CyclePath

section Printer

theorem join_append (a b : List String) :
    String.join (a ++ b) = String.join a ++ String.join b := by
  induction a with
  | nil => simp [join_nil]
  | cons x xs ih => rw [List.cons_append, join_cons, join_cons, ih, String.append_assoc]

theorem join_map_flatMap {α : Type} (layout : Line → String) (f : α → List Line)
    (l : List α) :
    String.join ((l.flatMap f).map layout) =
      String.join (l.map (fun d => String.join ((f d).map layout))) := by
  induction l with
  | nil => rfl
  | cons x xs ih =>
    rw [List.flatMap_cons, List.map_append, join_append, ih, List.map_cons, join_cons]

theorem dumpLines_eq (widthOf : Platform → PtrWidth) (rv : ResolvedVersion) :
    dumpLines widthOf rv = (printOrder rv.table).flatMap (entryLines (widthOf rv.platform)) := by
  unfold dumpLines printOrder categoryOrder
  simp [List.flatMap_cons, List.flatMap_append]

theorem dumpLines_single (widthOf : Platform → PtrWidth) (label : String)
    (platform : Platform) (d : OffsetKind) :
    dumpLines widthOf { label := label, platform := platform, table := [d] } =
      entryLines (widthOf platform) d := by
  unfold dumpLines categoryOrder ofCategory
  cases d <;> simp [OffsetKind.category, List.flatMap_cons]

theorem methodLines_eq (ms : List String) :
    ∀ slot : Nat, methodLines slot ms =
      (ms.enumFrom slot).map (fun im => Line.method im.1 im.2) := by
  induction ms with
  | nil => intro slot; rfl
  | cons m ms ih =>
    intro slot
    rw [methodLines, ih (slot + 1), List.enumFrom_cons, List.map_cons]

/-- The dump of a table is the dumps of its declarations, one after the other
in print order. -/
theorem format_split (layout : Line → String) (widthOf : Platform → PtrWidth)
    (rv : ResolvedVersion) :
    format layout widthOf rv =
      String.join ((printOrder rv.table).map (fun d =>
        format layout widthOf { label := rv.label, platform := rv.platform, table := [d] })) := by
  unfold format
  rw [dumpLines_eq, join_map_flatMap]
  congr 1
  apply List.map_congr_left
  intro d _
  rw [dumpLines_single]

theorem printOrder_filter (t : Table) (c : Category) :
    (printOrder t).filter (fun d => decide (d.category = c)) = ofCategory t c := by
  unfold printOrder categoryOrder ofCategory
  simp only [List.flatMap_cons, List.flatMap_nil, List.append_nil, List.filter_append,
    List.filter_filter]
  have e1 : ∀ c1 c2 : Category, c1 ≠ c2 →
      List.filter (fun a : OffsetKind =>
        decide (a.category = c1) && decide (a.category = c2)) t = [] := by
    intro c1 c2 hne
    rw [List.filter_eq_nil_iff]
    intro a _
    simp only [Bool.and_eq_true, decide_eq_true_eq, not_and]
    intro h1 h2
    exact hne (h1.symm.trans h2)
  cases c <;> simp [e1]

theorem printOrder_sorted (t : Table) :
    (printOrder t).Pairwise (fun x y => x.category.rank ≤ y.category.rank) := by
  have hconst : ∀ c : Category, ∀ x ∈ ofCategory t c, x.category = c := by
    intro c x hx
    unfold ofCategory at hx
    simpa using (List.mem_filter.mp hx).2
  have hblock : ∀ c : Category,
      (ofCategory t c).Pairwise (fun x y => x.category.rank ≤ y.category.rank) := by
    intro c
    rw [List.pairwise_iff_forall_sublist]
    intro a b hab
    have ha := hconst c a (hab.subset (by simp))
    have hb := hconst c b (hab.subset (by simp))
    rw [ha, hb]
  unfold printOrder categoryOrder
  simp only [List.flatMap_cons, List.flatMap_nil, List.append_nil]
  simp only [List.pairwise_append, List.mem_append]
  refine ⟨hblock _, ⟨hblock _, ⟨hblock _, hblock _, ?_⟩, ?_⟩, ?_⟩
  · intro a ha b hb
    rw [hconst _ a ha, hconst _ b hb]; decide
  · intro a ha b hb
    rcases hb with hb | hb <;> (rw [hconst _ a ha, hconst _ b hb]; decide)
  · intro a ha b hb
    rcases hb with hb | hb | hb <;> (rw [hconst _ a ha, hconst _ b hb]; decide)

theorem printOrder_perm (t : Table) : (printOrder t).Perm t := by
  rw [List.perm_iff_count]
  intro a
  have h1 := printOrder_filter t a.category
  have h2 : List.count a (printOrder t) =
      List.count a ((printOrder t).filter (fun d => decide (d.category = a.category))) := by
    rw [List.count_filter]; simp
  have h3 : List.count a t =
      List.count a (t.filter (fun d => decide (d.category = a.category))) := by
    rw [List.count_filter]; simp
  rw [h2, h3, h1, ofCategory]

theorem hexDigit_value : ∀ d, d < 16 → hexDigitValue (hexDigit d) = d ∧ hexDigit d ∈ hexDigits := by
  decide

theorem hexFixed_length (w n : Nat) : (hexFixed w n).length = w := by
  induction w generalizing n with
  | zero => rfl
  | succ w ih => simp [hexFixed, ih]

theorem hexFixed_digits (w n : Nat) : ∀ c ∈ hexFixed w n, c ∈ hexDigits := by
  induction w generalizing n with
  | zero => intro c hc; simp [hexFixed] at hc
  | succ w ih =>
    intro c hc
    rw [hexFixed, List.mem_append] at hc
    rcases hc with hc | hc
    · exact ih _ c hc
    · have : c = hexDigit (n % 16) := by simpa using hc
      rw [this]
      exact (hexDigit_value _ (Nat.mod_lt _ (by decide))).2

theorem hexFixed_value (w n : Nat) : hexValue (hexFixed w n) = n % 16 ^ w := by
  induction w generalizing n with
  | zero => simp [hexFixed, hexValue, Nat.mod_one]
  | succ w ih =>
    have ih' := ih (n / 16)
    unfold hexValue at ih' ⊢
    rw [hexFixed, List.foldl_append, ih']
    simp only [List.foldl_cons, List.foldl_nil]
    rw [(hexDigit_value _ (Nat.mod_lt n (by decide))).1]
    rw [pow_succ, Nat.mul_comm (16 ^ w) 16, Nat.mod_mul]
    omega

theorem hexAddress_length (w : PtrWidth) (a : Nat) :
    (hexAddress w a).length = w.hexDigits := by
  unfold hexAddress
  rw [String.length]
  exact hexFixed_length _ _

end Printer

section MergeSpec

theorem perm2 {α : Type} {a b y z : α} (h : [y, z].Perm [a, b]) :
    (y = a ∧ z = b) ∨ (y = b ∧ z = a) := by
  have hy : y ∈ [a, b] := (h.mem_iff).mp (by simp)
  simp only [List.mem_cons, List.mem_singleton, List.not_mem_nil, or_false] at hy
  rcases hy with rfl | rfl
  · have := (List.perm_cons y).mp h
    exact Or.inl ⟨rfl, by simpa using List.perm_singleton.mp this⟩
  · have := (List.perm_cons y).mp (h.trans (List.Perm.swap y a []))
    exact Or.inr ⟨rfl, by simpa using List.perm_singleton.mp this⟩

theorem perm3 {α : Type} {a b c : α} {l : List α} (h : l.Perm [a, b, c]) :
    l = [a, b, c] ∨ l = [a, c, b] ∨ l = [b, a, c] ∨ l = [b, c, a] ∨ l = [c, a, b] ∨
      l = [c, b, a] := by
  have hlen := h.length_eq
  match l, hlen, h with
  | [x, y, z], _, h =>
    have hx : x ∈ [a, b, c] := (h.mem_iff).mp (by simp)
    simp only [List.mem_cons, List.mem_singleton, List.not_mem_nil, or_false] at hx
    rcases hx with rfl | rfl | rfl
    · rcases perm2 ((List.perm_cons x).mp h) with ⟨rfl, rfl⟩ | ⟨rfl, rfl⟩ <;> simp
    · have h' : [x, y, z].Perm [x, a, c] := h.trans (List.Perm.swap x a [c])
      rcases perm2 ((List.perm_cons x).mp h') with ⟨rfl, rfl⟩ | ⟨rfl, rfl⟩ <;> simp
    · have h' : [x, y, z].Perm [x, a, b] :=
        h.trans (((List.perm_cons a).mpr (List.Perm.swap x b [])).trans
          (List.Perm.swap x a [b]))
      rcases perm2 ((List.perm_cons x).mp h') with ⟨rfl, rfl⟩ | ⟨rfl, rfl⟩ <;> simp

/-- The override rule in full: positions, values and the appended part of
`applyDecls t ds` for a table `t` with pairwise different keys. -/
theorem applyDecls_spec (t : Table) (ds : List OffsetKind) (hn : (keys t).Nodup) :
    (keys (applyDecls t ds)).Nodup ∧
    (keys (applyDecls t ds)).take t.length = keys t ∧
    (∀ (i : Nat) (h : i < t.length),
      (t.get ⟨i, h⟩).key ∉ ds.map OffsetKind.key →
        (applyDecls t ds).get? i = some (t.get ⟨i, h⟩)) ∧
    (∀ (i : Nat) (h : i < t.length) (d : OffsetKind),
      lastDecl ds (t.get ⟨i, h⟩).key = some d → (applyDecls t ds).get? i = some d) ∧
    (∀ k, k ∈ (keys (applyDecls t ds)).drop t.length ↔
      (k ∈ ds.map OffsetKind.key ∧ k ∉ keys t)) ∧
    (∀ x ∈ (applyDecls t ds).drop t.length, lastDecl ds x.key = some x) ∧
    ((keys (applyDecls t ds)).drop t.length).Pairwise (fun k1 k2 =>
      (ds.map OffsetKind.key).indexOf k1 < (ds.map OffsetKind.key).indexOf k2) := by
  obtain ⟨ext, hk, hmem, hpw⟩ := keys_applyDecls t ds
  have hv := values_applyDecls t ds hn
  have hlen : (keys t).length = t.length := by simp [keys]
  have htake : (keys (applyDecls t ds)).take t.length = keys t := by
    rw [hk, ← hlen, List.take_left]
  have hdrop : (keys (applyDecls t ds)).drop t.length = ext := by
    rw [hk, ← hlen, List.drop_left]
  have hlenB : (applyDecls t ds).length = t.length + ext.length := by
    have := congrArg List.length hk
    simpa [keys] using this
  have hpos : ∀ (i : Nat) (h : i < t.length),
      ∃ x, (applyDecls t ds).get? i = some x ∧ x ∈ applyDecls t ds ∧
        x.key = (t.get ⟨i, h⟩).key := by
    intro i h
    have hi : i < (applyDecls t ds).length := by omega
    refine ⟨(applyDecls t ds).get ⟨i, hi⟩, List.get?_eq_get hi, List.get_mem _ _ _, ?_⟩
    have h1 : (keys (applyDecls t ds)).get? i = (keys t).get? i := by
      rw [hk]
      simp only [List.get?_eq_getElem?]
      exact List.getElem?_append_left (by omega)
    unfold keys at h1
    simp only [List.get?_eq_getElem?, List.getElem?_map] at h1
    rw [List.getElem?_eq_getElem hi, List.getElem?_eq_getElem h] at h1
    simpa using h1
  refine ⟨keys_applyDecls_nodup t ds hn, htake, ?_, ?_, ?_, ?_, ?_⟩
  · intro i h hnot
    obtain ⟨x, hx1, hx2, hx3⟩ := hpos i h
    rw [hx1]
    have hxt : x ∈ t := (hv x hx2).2 (by rw [hx3]; exact hnot)
    rw [List.inj_on_of_nodup_map hn hxt (List.get_mem _ _ _) hx3]
  · intro i h d hd
    obtain ⟨x, hx1, hx2, hx3⟩ := hpos i h
    rw [hx1]
    obtain ⟨hd1, hd2⟩ := lastDecl_key ds _ d hd
    have hin : x.key ∈ ds.map OffsetKind.key := by
      rw [hx3, ← hd1]; exact List.mem_map_of_mem _ hd2
    have := (hv x hx2).1 hin
    rw [hx3, hd] at this
    exact this.symm
  · intro k
    rw [hdrop]; exact hmem k
  · intro x hx
    have hx2 : x ∈ applyDecls t ds := List.mem_of_mem_drop hx
    have hxk : x.key ∈ ext := by
      rw [← hdrop]
      unfold keys
      rw [← List.map_drop]
      exact List.mem_map_of_mem _ hx
    exact (hv x hx2).1 ((hmem _).mp hxk).1
  · rw [hdrop]; exact hpw

end MergeSpec

/-! ## The claims -/

section Claims

variable {E V : Type}

/-- C1. When the registry is constructed, `main` calls `PrintOffsets` exactly
once on each version, in increasing index order (the calls are the pairs of
index and version of the vector, in order), each call is followed by the
write of its result, and the text on standard output is the concatenation of
the dumps in registry order with nothing between them; the only text after
the last dump is the prompt line of a build without `LINUX_BUILD`. -/
theorem main_prints_every_version_once_in_order (LINUX_BUILD : Bool)
    (newVersionInfoFactory : String → Except E (VersionInfoFactory V))
    (PrintOffsets : V → String) (numargs : Int) (args : List String) (cin : List Char)
    (VIF : VersionInfoFactory V)
    (hok : newVersionInfoFactory "Memory.xml" = Except.ok VIF) :
    printCalls (main LINUX_BUILD newVersionInfoFactory PrintOffsets numargs args cin).trace =
      VIF.versions.enum ∧
    (main LINUX_BUILD newVersionInfoFactory PrintOffsets numargs args cin).trace =
      [Event.construct "Memory.xml"] ++
        VIF.versions.enum.flatMap (iterationEvents PrintOffsets) ++
        (if LINUX_BUILD then [] else [Event.write donePrompt, Event.endl, Event.cinIgnore]) ++
        [Event.destroy] ∧
    (main LINUX_BUILD newVersionInfoFactory PrintOffsets numargs args cin).cout =
      String.join (VIF.versions.map PrintOffsets) ++
        (if LINUX_BUILD then "" else donePrompt ++ "\n") := by
  rw [main_ok LINUX_BUILD newVersionInfoFactory PrintOffsets numargs args cin VIF hok]
  refine ⟨?_, rfl, rfl⟩
  simp only [printCalls_append, printCalls_iterations]
  cases LINUX_BUILD <;> simp [printCalls]

theorem main_prints_every_version_once_in_order_witness :
    exampleNew "Memory.xml" = Except.ok exampleFactory ∧
    printCalls (main false exampleNew examplePrintOffsets 1 ["dumpoffsets"] ['\n']).trace =
      exampleFactory.versions.enum ∧
    (main false exampleNew examplePrintOffsets 1 ["dumpoffsets"] ['\n']).trace =
      [Event.construct "Memory.xml"] ++
        exampleFactory.versions.enum.flatMap (iterationEvents examplePrintOffsets) ++
        (if false then [] else [Event.write donePrompt, Event.endl, Event.cinIgnore]) ++
        [Event.destroy] ∧
    (main false exampleNew examplePrintOffsets 1 ["dumpoffsets"] ['\n']).cout =
      String.join (exampleFactory.versions.map examplePrintOffsets) ++
        (if false then "" else donePrompt ++ "\n") :=
  ⟨rfl, main_prints_every_version_once_in_order false exampleNew examplePrintOffsets 1
    ["dumpoffsets"] ['\n'] exampleFactory rfl⟩

/-- C2, as the code has it.  When the load fails, the error leaves `main`
uncaught: `main` does not return 0 (it does not return at all), it stops
right after the constructor call, and it writes nothing itself, no report
included. -/
theorem main_failing_load_escapes (LINUX_BUILD : Bool)
    (newVersionInfoFactory : String → Except E (VersionInfoFactory V))
    (PrintOffsets : V → String) (numargs : Int) (args : List String) (cin : List Char)
    (e : E) (herr : newVersionInfoFactory "Memory.xml" = Except.error e) :
    (main LINUX_BUILD newVersionInfoFactory PrintOffsets numargs args cin).outcome =
      Outcome.uncaught e ∧
    (main LINUX_BUILD newVersionInfoFactory PrintOffsets numargs args cin).outcome ≠
      Outcome.returned 0 ∧
    (main LINUX_BUILD newVersionInfoFactory PrintOffsets numargs args cin).cout = "" ∧
    (main LINUX_BUILD newVersionInfoFactory PrintOffsets numargs args cin).trace =
      [Event.construct "Memory.xml"] := by
  rw [main_error LINUX_BUILD newVersionInfoFactory PrintOffsets numargs args cin e herr]
  exact ⟨rfl, by simp, rfl, rfl⟩

theorem main_failing_load_escapes_witness :
    failingNew "Memory.xml" = Except.error (Error.ParseError 3 7 "unterminated tag") ∧
    (main true failingNew examplePrintOffsets 1 ["dumpoffsets"] []).outcome =
      Outcome.uncaught (Error.ParseError 3 7 "unterminated tag") ∧
    (main true failingNew examplePrintOffsets 1 ["dumpoffsets"] []).outcome ≠
      Outcome.returned 0 ∧
    (main true failingNew examplePrintOffsets 1 ["dumpoffsets"] []).cout = "" ∧
    (main true failingNew examplePrintOffsets 1 ["dumpoffsets"] []).trace =
      [Event.construct "Memory.xml"] :=
  ⟨rfl, main_failing_load_escapes true failingNew examplePrintOffsets 1 ["dumpoffsets"] []
    (Error.ParseError 3 7 "unterminated tag") rfl⟩

/-- C2, as stated, fails: on a load that fails with a `ParseError`, `main`
writes no text at all and takes no step after the constructor call, so it
reports nothing. -/
theorem main_failing_load_writes_nothing :
    failingNew "Memory.xml" = Except.error (Error.ParseError 3 7 "unterminated tag") ∧
    (main false failingNew examplePrintOffsets 1 ["dumpoffsets"] ['\n']).cout = "" ∧
    (main false failingNew examplePrintOffsets 1 ["dumpoffsets"] ['\n']).trace =
      [Event.construct "Memory.xml"] ∧
    ∀ s, Event.write s ∉
      (main false failingNew examplePrintOffsets 1 ["dumpoffsets"] ['\n']).trace := by
  refine ⟨rfl, rfl, rfl, ?_⟩
  intro s hs
  have ht : (main false failingNew examplePrintOffsets 1 ["dumpoffsets"] ['\n']).trace =
      [Event.construct "Memory.xml"] := rfl
  rw [ht] at hs
  simp at hs

/-- C3. Two runs of the same build whose registries hold the same version
sequence, with the same `PrintOffsets` result for each of these versions,
write the same text to standard output, whatever the argument vectors, the
input streams and the rest of the two constructors are. -/
theorem main_output_deterministic (LINUX_BUILD : Bool)
    (new1 new2 : String → Except E (VersionInfoFactory V))
    (PrintOffsets1 PrintOffsets2 : V → String) (numargs1 numargs2 : Int)
    (args1 args2 : List String) (cin1 cin2 : List Char) (VIF1 VIF2 : VersionInfoFactory V)
    (h1 : new1 "Memory.xml" = Except.ok VIF1) (h2 : new2 "Memory.xml" = Except.ok VIF2)
    (hv : VIF1.versions = VIF2.versions)
    (hp : ∀ v ∈ VIF1.versions, PrintOffsets1 v = PrintOffsets2 v) :
    (main LINUX_BUILD new1 PrintOffsets1 numargs1 args1 cin1).cout =
      (main LINUX_BUILD new2 PrintOffsets2 numargs2 args2 cin2).cout := by
  rw [main_ok LINUX_BUILD new1 PrintOffsets1 numargs1 args1 cin1 VIF1 h1,
    main_ok LINUX_BUILD new2 PrintOffsets2 numargs2 args2 cin2 VIF2 h2]
  simp only []
  rw [← hv, List.map_congr_left hp]

theorem main_output_deterministic_witness :
    exampleNew "Memory.xml" = Except.ok exampleFactory ∧
    storageNew "Memory.xml" = Except.ok exampleFactory ∧
    exampleFactory.versions = exampleFactory.versions ∧
    (∀ v ∈ exampleFactory.versions, examplePrintOffsets v = examplePrintOffsets v) ∧
    (main false exampleNew examplePrintOffsets 1 ["dumpoffsets"] ['\n']).cout =
      (main false storageNew examplePrintOffsets 3 ["dumpoffsets", "-v", "x"] ['q', '\n']).cout :=
  ⟨rfl, rfl, rfl, fun _ _ => rfl,
    main_output_deterministic false exampleNew storageNew examplePrintOffsets
      examplePrintOffsets 1 3 ["dumpoffsets"] ["dumpoffsets", "-v", "x"] ['\n'] ['q', '\n']
      exampleFactory exampleFactory rfl rfl rfl (fun _ _ => rfl)⟩

/-- C8. When the registry is constructed (`PrintOffsets` returns a text for
every version), `main` writes the dumps, deletes the registry as its last
step, and returns 0. -/
theorem main_success_returns_zero (LINUX_BUILD : Bool)
    (newVersionInfoFactory : String → Except E (VersionInfoFactory V))
    (PrintOffsets : V → String) (numargs : Int) (args : List String) (cin : List Char)
    (VIF : VersionInfoFactory V)
    (hok : newVersionInfoFactory "Memory.xml" = Except.ok VIF) :
    (main LINUX_BUILD newVersionInfoFactory PrintOffsets numargs args cin).outcome =
      Outcome.returned 0 ∧
    (main LINUX_BUILD newVersionInfoFactory PrintOffsets numargs args cin).cout =
      String.join (VIF.versions.map PrintOffsets) ++
        (if LINUX_BUILD then "" else donePrompt ++ "\n") ∧
    (main LINUX_BUILD newVersionInfoFactory PrintOffsets numargs args cin).trace.getLast? =
      some Event.destroy := by
  rw [main_ok LINUX_BUILD newVersionInfoFactory PrintOffsets numargs args cin VIF hok]
  refine ⟨rfl, rfl, ?_⟩
  simp only []
  rw [List.getLast?_append]
  rfl

theorem main_success_returns_zero_witness :
    exampleNew "Memory.xml" = Except.ok exampleFactory ∧
    (main true exampleNew examplePrintOffsets 1 ["dumpoffsets"] []).outcome =
      Outcome.returned 0 ∧
    (main true exampleNew examplePrintOffsets 1 ["dumpoffsets"] []).cout =
      String.join (exampleFactory.versions.map examplePrintOffsets) ++
        (if true then "" else donePrompt ++ "\n") ∧
    (main true exampleNew examplePrintOffsets 1 ["dumpoffsets"] []).trace.getLast? =
      some Event.destroy :=
  ⟨rfl, main_success_returns_zero true exampleNew examplePrintOffsets 1 ["dumpoffsets"] []
    exampleFactory rfl⟩

/-- C9, as the code has it.  In every run `main` calls the constructor of the
registry exactly once, as its first step, and the value it passes is the file
name `Memory.xml`, whatever its arguments, its input and the constructor are
and whether the load succeeds or not; the run depends on the constructor only
through what it returns for that name; and the only input `main` itself
consumes is one character of standard input, taken by `cin.ignore()` after a
successful load in a build without `LINUX_BUILD`. -/
theorem main_constructs_from_file_name (LINUX_BUILD : Bool)
    (newVersionInfoFactory : String → Except E (VersionInfoFactory V))
    (PrintOffsets : V → String) (numargs : Int) (args : List String) (cin : List Char) :
    constructArgs
      (main LINUX_BUILD newVersionInfoFactory PrintOffsets numargs args cin).trace =
      ["Memory.xml"] ∧
    (main LINUX_BUILD newVersionInfoFactory PrintOffsets numargs args cin).trace.head? =
      some (Event.construct "Memory.xml") ∧
    (∀ new2 : String → Except E (VersionInfoFactory V),
      new2 "Memory.xml" = newVersionInfoFactory "Memory.xml" →
      main LINUX_BUILD new2 PrintOffsets numargs args cin =
        main LINUX_BUILD newVersionInfoFactory PrintOffsets numargs args cin) ∧
    (main LINUX_BUILD newVersionInfoFactory PrintOffsets numargs args cin).cin =
      (match LINUX_BUILD, newVersionInfoFactory "Memory.xml" with
       | false, Except.ok _ => cin.drop 1
       | _, _ => cin) := by
  refine ⟨?_, ?_, ?_, ?_⟩
  · cases hc : newVersionInfoFactory "Memory.xml" with
    | error e =>
      rw [main_error LINUX_BUILD newVersionInfoFactory PrintOffsets numargs args cin e hc]
      rfl
    | ok VIF =>
      rw [main_ok LINUX_BUILD newVersionInfoFactory PrintOffsets numargs args cin VIF hc]
      simp only [constructArgs_append, constructArgs_iterations]
      cases LINUX_BUILD <;> simp [constructArgs]
  · cases hc : newVersionInfoFactory "Memory.xml" with
    | error e =>
      rw [main_error LINUX_BUILD newVersionInfoFactory PrintOffsets numargs args cin e hc]
      rfl
    | ok VIF =>
      rw [main_ok LINUX_BUILD newVersionInfoFactory PrintOffsets numargs args cin VIF hc]
      rfl
  · intro new2 h2
    unfold main
    rw [h2]
  · cases hc : newVersionInfoFactory "Memory.xml" with
    | error e =>
      rw [main_error LINUX_BUILD newVersionInfoFactory PrintOffsets numargs args cin e hc]
      cases LINUX_BUILD <;> rfl
    | ok VIF =>
      rw [main_ok LINUX_BUILD newVersionInfoFactory PrintOffsets numargs args cin VIF hc]
      cases LINUX_BUILD <;> rfl

theorem main_constructs_from_file_name_witness :
    storageNew "Memory.xml" = exampleNew "Memory.xml" ∧
    main false storageNew examplePrintOffsets 1 ["dumpoffsets"] ['x', 'y'] =
      main false exampleNew examplePrintOffsets 1 ["dumpoffsets"] ['x', 'y'] ∧
    (main false exampleNew examplePrintOffsets 1 ["dumpoffsets"] ['x', 'y']).cin = ['y'] :=
  ⟨rfl,
    (main_constructs_from_file_name false exampleNew examplePrintOffsets 1 ["dumpoffsets"]
      ['x', 'y']).2.2.1 storageNew rfl,
    (main_constructs_from_file_name false exampleNew examplePrintOffsets 1 ["dumpoffsets"]
      ['x', 'y']).2.2.2⟩

/-- C9, as stated, fails: with a storage whose file `Memory.xml` holds the
text `<DFHack></DFHack>`, the value `main` passes to the registry is the
file name, not that text. -/
theorem main_passes_file_name_not_contents :
    exampleStorage "Memory.xml" = some "<DFHack></DFHack>" ∧
    constructArgs (main true storageNew examplePrintOffsets 1 ["dumpoffsets"] []).trace =
      ["Memory.xml"] ∧
    constructArgs (main true storageNew examplePrintOffsets 1 ["dumpoffsets"] []).trace ≠
      ["<DFHack></DFHack>"] := by
  have ht : constructArgs
      (main true storageNew examplePrintOffsets 1 ["dumpoffsets"] []).trace =
      ["Memory.xml"] := by decide
  refine ⟨rfl, ht, ?_⟩
  rw [ht]
  decide

/-- C10. When the registry is constructed: in a `LINUX_BUILD` the text on
standard output is exactly the concatenation of the dumps (the empty text for
a registry without versions); in a build without `LINUX_BUILD` it is that
concatenation followed by the one line `Done. Press any key to continue`,
which is written after the last dump; and the run does not depend on the
command-line arguments in either build. -/
theorem main_output_per_build
    (newVersionInfoFactory : String → Except E (VersionInfoFactory V))
    (PrintOffsets : V → String) (numargs : Int) (args : List String) (cin : List Char)
    (VIF : VersionInfoFactory V)
    (hok : newVersionInfoFactory "Memory.xml" = Except.ok VIF) :
    (main true newVersionInfoFactory PrintOffsets numargs args cin).cout =
      String.join (VIF.versions.map PrintOffsets) ∧
    (VIF.versions = [] →
      (main true newVersionInfoFactory PrintOffsets numargs args cin).cout = "") ∧
    (main false newVersionInfoFactory PrintOffsets numargs args cin).cout =
      String.join (VIF.versions.map PrintOffsets) ++ "Done. Press any key to continue\n" ∧
    (main false newVersionInfoFactory PrintOffsets numargs args cin).trace =
      [Event.construct "Memory.xml"] ++
        VIF.versions.enum.flatMap (iterationEvents PrintOffsets) ++
        [Event.write "Done. Press any key to continue", Event.endl, Event.cinIgnore,
          Event.destroy] ∧
    (∀ (LINUX_BUILD : Bool) (numargs' : Int) (args' : List String),
      main LINUX_BUILD newVersionInfoFactory PrintOffsets numargs' args' cin =
        main LINUX_BUILD newVersionInfoFactory PrintOffsets numargs args cin) := by
  refine ⟨?_, ?_, ?_, ?_, ?_⟩
  · rw [main_ok true newVersionInfoFactory PrintOffsets numargs args cin VIF hok]
    simp
  · intro hnil
    rw [main_ok true newVersionInfoFactory PrintOffsets numargs args cin VIF hok, hnil]
    rfl
  · rw [main_ok false newVersionInfoFactory PrintOffsets numargs args cin VIF hok]
    rfl
  · rw [main_ok false newVersionInfoFactory PrintOffsets numargs args cin VIF hok]
    simp [donePrompt]
  · intro LINUX_BUILD numargs' args'
    rfl

theorem main_output_per_build_witness :
    exampleNew "Memory.xml" = Except.ok exampleFactory ∧
    (main true exampleNew examplePrintOffsets 1 ["dumpoffsets"] ['\n']).cout =
      String.join (exampleFactory.versions.map examplePrintOffsets) ∧
    (exampleFactory.versions = [] →
      (main true exampleNew examplePrintOffsets 1 ["dumpoffsets"] ['\n']).cout = "") ∧
    (main false exampleNew examplePrintOffsets 1 ["dumpoffsets"] ['\n']).cout =
      String.join (exampleFactory.versions.map examplePrintOffsets) ++
        "Done. Press any key to continue\n" ∧
    (main false exampleNew examplePrintOffsets 1 ["dumpoffsets"] ['\n']).trace =
      [Event.construct "Memory.xml"] ++
        exampleFactory.versions.enum.flatMap (iterationEvents examplePrintOffsets) ++
        [Event.write "Done. Press any key to continue", Event.endl, Event.cinIgnore,
          Event.destroy] ∧
    (∀ (LINUX_BUILD : Bool) (numargs' : Int) (args' : List String),
      main LINUX_BUILD exampleNew examplePrintOffsets numargs' args' ['\n'] =
        main LINUX_BUILD exampleNew examplePrintOffsets 1 ["dumpoffsets"] ['\n']) :=
  ⟨rfl, main_output_per_build exampleNew examplePrintOffsets 1 ["dumpoffsets"] ['\n']
    exampleFactory rfl⟩

end Claims

section CoreClaims

/-- C4. Let `B` inherit from `A` on the same platform in a set of entries with
unique identities in which every reference matches an entry and the
inheritance graph has no cycle.  Then resolution succeeds, and with `TA`, `TB`
the resolved tables of `A` and `B`: both have pairwise different keys; the
keys of `A` keep their positions at the front of `TB`; a key `B` does not
declare keeps the value of `A` at its position; a key both declare carries the
(last) declaration of `B` at the position it has in `A`; the part of `TB`
after the keys of `A` holds exactly the keys only `B` declares, each with the
(last) declaration of `B`, in the order of their first declaration in `B`. -/
theorem inheriting_version_table (all : List VersionEntry) (A B : VersionEntry)
    (hU : UniqueIdentities all) (hND : NoDangling all) (hAc : ¬ HasCycle all)
    (hA : A ∈ all) (hB : B ∈ all)
    (hinh : B.inheritsFrom = some A.label) (hplat : B.platform = A.platform) :
    ∃ (reg : Registry) (TA TB : Table),
      resolve all = some (Except.ok reg) ∧
      reg.get A.platform A.label =
        Except.ok { label := A.label, platform := A.platform, table := TA } ∧
      reg.get B.platform B.label =
        Except.ok { label := B.label, platform := B.platform, table := TB } ∧
      (keys TA).Nodup ∧ (keys TB).Nodup ∧
      (keys TB).take TA.length = keys TA ∧
      (∀ (i : Nat) (h : i < TA.length),
        (TA.get ⟨i, h⟩).key ∉ B.decls.map OffsetKind.key →
          TB.get? i = some (TA.get ⟨i, h⟩)) ∧
      (∀ (i : Nat) (h : i < TA.length) (d : OffsetKind),
        lastDecl B.decls (TA.get ⟨i, h⟩).key = some d → TB.get? i = some d) ∧
      (∀ k, k ∈ (keys TB).drop TA.length ↔
        (k ∈ B.decls.map OffsetKind.key ∧ k ∉ keys TA)) ∧
      (∀ x ∈ TB.drop TA.length, lastDecl B.decls x.key = some x) ∧
      ((keys TB).drop TA.length).Pairwise (fun k1 k2 =>
        (B.decls.map OffsetKind.key).indexOf k1 < (B.decls.map OffsetKind.key).indexOf k2) := by
  obtain ⟨reg, hreg⟩ := resolve_complete all hU (grounded_of_acyclic all hND hAc)
  obtain ⟨done, hcol, hI, hall⟩ := resolve_ok all hU reg hreg
  obtain ⟨TA, hTA⟩ := hall A hA
  obtain ⟨TB, hTB⟩ := hall B hB
  obtain ⟨hndA, _, _, _, _, _⟩ := hI _ _ hTA
  obtain ⟨_, B', hB', hidB, hgood, _⟩ := hI _ _ hTB
  have hBB : B' = B := unique_entry hU hB' hB hidB
  subst hBB
  have hfA : findEntry all { platform := B'.platform, label := A.label } = some A := by
    have := findEntry_self hU hA
    rw [hplat]; exact this
  have hTB' : TB = applyDecls TA B'.decls := by
    unfold Good at hgood
    rw [hinh] at hgood
    obtain ⟨a, ta, h1, h2, h3⟩ := hgood
    rw [hfA] at h1
    cases h1
    rw [hTA] at h2
    cases h2
    exact h3
  subst hTB'
  refine ⟨reg, TA, applyDecls TA B'.decls, hreg, ?_, ?_, hndA, applyDecls_spec TA B'.decls hndA⟩
  · rw [hcol]; exact get_collect all hU done A TA hA hTA
  · rw [hcol]; exact get_collect all hU done B' _ hB hTB

theorem inheriting_version_table_witness :
    UniqueIdentities [overrideBase, overrideChild] ∧
    NoDangling [overrideBase, overrideChild] ∧
    ¬ HasCycle [overrideBase, overrideChild] ∧
    overrideBase ∈ [overrideBase, overrideChild] ∧
    overrideChild ∈ [overrideBase, overrideChild] ∧
    overrideChild.inheritsFrom = some overrideBase.label ∧
    overrideChild.platform = overrideBase.platform ∧
    ∃ (reg : Registry) (TA TB : Table),
      resolve [overrideBase, overrideChild] = some (Except.ok reg) ∧
      reg.get overrideBase.platform overrideBase.label =
        Except.ok { label := overrideBase.label, platform := overrideBase.platform,
                    table := TA } ∧
      reg.get overrideChild.platform overrideChild.label =
        Except.ok { label := overrideChild.label, platform := overrideChild.platform,
                    table := TB } ∧
      (keys TA).Nodup ∧ (keys TB).Nodup ∧
      (keys TB).take TA.length = keys TA ∧
      (∀ (i : Nat) (h : i < TA.length),
        (TA.get ⟨i, h⟩).key ∉ overrideChild.decls.map OffsetKind.key →
          TB.get? i = some (TA.get ⟨i, h⟩)) ∧
      (∀ (i : Nat) (h : i < TA.length) (d : OffsetKind),
        lastDecl overrideChild.decls (TA.get ⟨i, h⟩).key = some d → TB.get? i = some d) ∧
      (∀ k, k ∈ (keys TB).drop TA.length ↔
        (k ∈ overrideChild.decls.map OffsetKind.key ∧ k ∉ keys TA)) ∧
      (∀ x ∈ TB.drop TA.length, lastDecl overrideChild.decls x.key = some x) ∧
      ((keys TB).drop TA.length).Pairwise (fun k1 k2 =>
        (overrideChild.decls.map OffsetKind.key).indexOf k1 <
          (overrideChild.decls.map OffsetKind.key).indexOf k2) :=
  have hU : UniqueIdentities [overrideBase, overrideChild] := by
    unfold UniqueIdentities; decide
  have hG : Grounded [overrideBase, overrideChild] := by
    intro e he
    simp only [List.mem_cons, List.mem_singleton, List.not_mem_nil, or_false] at he
    rcases he with rfl | rfl
    · exact ⟨1, rfl⟩
    · exact ⟨2, rfl⟩
  have hND : NoDangling [overrideBase, overrideChild] := by
    intro e he l hl
    simp only [List.mem_cons, List.mem_singleton, List.not_mem_nil, or_false] at he
    rcases he with rfl | rfl
    · cases hl
    · cases hl; decide
  have hAc : ¬ HasCycle [overrideBase, overrideChild] :=
    fun hC => not_grounded_of_cycle _ hC hG
  ⟨hU, hND, hAc, by simp, by simp, rfl, rfl,
    inheriting_version_table [overrideBase, overrideChild] overrideBase overrideChild
      hU hND hAc (by simp) (by simp) rfl rfl⟩

/-- C5. Three entries that inherit in a circle (`a` from `b`, `b` from `c`,
`c` from `a`, on one platform, labels pairwise different), in any document
order: resolution returns, and it returns a `CycleError` whose path is
`a, b, c` in some rotation.  More generally, whenever the inheritance
references of a set of entries have a cycle, the cycle is detected before any
resolution proceeds: the cycle detection, which reads the dependency graph
only, reports a path, resolution fails with the `CycleError` of that path and
produces no registry, the path is a full cycle (no identity twice, each
inherits from the next one, the last one from the first), and the failure is
the same for every set of entries with the same dependency graph, whatever
their declarations are. -/
theorem cycle_detected :
    (∀ (p a b c : String) (da db dc : List OffsetKind) (all : List VersionEntry),
      a ≠ b → b ≠ c → c ≠ a →
      all.Perm [{ label := a, platform := p, inheritsFrom := some b, decls := da },
                { label := b, platform := p, inheritsFrom := some c, decls := db },
                { label := c, platform := p, inheritsFrom := some a, decls := dc }] →
      ∃ path, resolve all = some (Except.error (Error.CycleError path)) ∧
        (path = [{ platform := p, label := a }, { platform := p, label := b },
                 { platform := p, label := c }] ∨
         path = [{ platform := p, label := b }, { platform := p, label := c },
                 { platform := p, label := a }] ∨
         path = [{ platform := p, label := c }, { platform := p, label := a },
                 { platform := p, label := b }])) ∧
    (∀ all : List VersionEntry, HasCycle all →
      ∃ path, findCycle (buildGraph all) = some (some path) ∧
        resolve all = some (Except.error (Error.CycleError path)) ∧
        (∀ reg, resolve all ≠ some (Except.ok reg)) ∧
        path.Nodup ∧ ClosedWalk all path ∧
        (∀ all' : List VersionEntry, buildGraph all' = buildGraph all →
          resolve all' = some (Except.error (Error.CycleError path)))) := by
  constructor
  · intro p a b c da db dc all hab hbc hca hperm
    rcases perm3 hperm with h | h | h | h | h | h <;> subst h
    · exact ⟨_, cycle3_fwd p a b c da db dc hab hbc hca, Or.inl rfl⟩
    · exact ⟨_, cycle3_bwd p a b c da db dc hab hbc hca, Or.inl rfl⟩
    · exact ⟨_, cycle3_bwd p b c a db dc da hbc hca hab, Or.inr (Or.inl rfl)⟩
    · exact ⟨_, cycle3_fwd p b c a db dc da hbc hca hab, Or.inr (Or.inl rfl)⟩
    · exact ⟨_, cycle3_fwd p c a b dc da db hca hab hbc, Or.inr (Or.inr rfl)⟩
    · exact ⟨_, cycle3_bwd p c a b dc da db hca hab hbc, Or.inr (Or.inr rfl)⟩
  · intro all hC
    obtain ⟨path, hpath⟩ := (findCycle_entries all).1 hC
    obtain ⟨_, hnd, hcw⟩ := (findCycle_entries all).2.2 path hpath
    have hres : ∀ all' : List VersionEntry, buildGraph all' = buildGraph all →
        resolve all' = some (Except.error (Error.CycleError path)) := by
      intro all' hg
      unfold resolve
      rw [hg, hpath]
    have hr := hres all rfl
    refine ⟨path, hpath, hr, ?_, hnd, hcw, hres⟩
    intro reg hreg
    rw [hr] at hreg
    cases hreg

theorem cycle_detected_witness :
    (∃ path, resolve [{ label := "B", platform := "p", inheritsFrom := some "C", decls := [] },
                      { label := "A", platform := "p", inheritsFrom := some "B", decls := [] },
                      { label := "C", platform := "p", inheritsFrom := some "A", decls := [] }] =
        some (Except.error (Error.CycleError path)) ∧
        (path = [{ platform := "p", label := "A" }, { platform := "p", label := "B" },
                 { platform := "p", label := "C" }] ∨
         path = [{ platform := "p", label := "B" }, { platform := "p", label := "C" },
                 { platform := "p", label := "A" }] ∨
         path = [{ platform := "p", label := "C" }, { platform := "p", label := "A" },
                 { platform := "p", label := "B" }])) ∧
    (∃ path, findCycle (buildGraph cycleAndGhost) = some (some path) ∧
        resolve cycleAndGhost = some (Except.error (Error.CycleError path)) ∧
        (∀ reg, resolve cycleAndGhost ≠ some (Except.ok reg)) ∧
        path.Nodup ∧ ClosedWalk cycleAndGhost path ∧
        (∀ all' : List VersionEntry, buildGraph all' = buildGraph cycleAndGhost →
          resolve all' = some (Except.error (Error.CycleError path)))) :=
  ⟨cycle_detected.1 "p" "A" "B" "C" [] [] [] _ (by decide) (by decide) (by decide)
      (List.Perm.swap _ _ _),
    cycle_detected.2 cycleAndGhost
      ⟨{ label := "a", platform := "p", inheritsFrom := some "b", decls := [] },
        by simp [cycleAndGhost], 2, by decide, rfl⟩⟩

/-- C7. End to end: resolving `base` (platform `p`, global `g_foo` at 0x1000)
and `child` (platform `p`, inherits `base`, function `fn_bar` at 0x2000)
gives `child` the table `g_foo`, `fn_bar`; its dump is, for every line text
and pointer width, the line of the global with its address in hexadecimal
followed by the line of the function with its address (shown as text for the
plain line text and 32 bit).  In general, for every line text: the dump of a
table is the dumps of its declarations one after the other, every declaration
once, globals before functions before vtables before classes, within a
category in the table's order; the dump of a declaration is its line with
category, name and address, followed for a vtable by one line per method with
its slot index and for a class by one line per field with its offset; and an
address is printed as 8 hexadecimal digits for 32 bit and 16 for 64 bit,
which denote the address modulo 2^32 and 2^64. -/
theorem end_to_end_dump :
    (∃ reg, resolve [exampleBase, exampleChild] = some (Except.ok reg) ∧
      reg.get "p" "child" = Except.ok exampleChildResolved) ∧
    exampleChildResolved.table =
      [OffsetKind.GlobalAddress "g_foo" 0x1000, OffsetKind.FunctionAddress "fn_bar" 0x2000] ∧
    (∀ (layout : Line → String) (widthOf : Platform → PtrWidth),
      format layout widthOf exampleChildResolved =
        layout (Line.entry Category.globals "g_foo" (some (hexAddress (widthOf "p") 0x1000))) ++
        layout (Line.entry Category.functions "fn_bar"
          (some (hexAddress (widthOf "p") 0x2000)))) ∧
    hexAddress PtrWidth.w32 0x1000 = "00001000" ∧
    hexAddress PtrWidth.w64 0x2000 = "0000000000002000" ∧
    format plainLayout (fun _ => PtrWidth.w32) exampleChildResolved =
      "global g_foo 0x00001000\nfunction fn_bar 0x00002000\n" ∧
    (∀ (layout : Line → String) (widthOf : Platform → PtrWidth) (rv : ResolvedVersion),
      format layout widthOf rv =
        String.join ((printOrder rv.table).map (fun d =>
          format layout widthOf
            { label := rv.label, platform := rv.platform, table := [d] })) ∧
      (printOrder rv.table).Perm rv.table ∧
      (printOrder rv.table).Pairwise (fun x y => x.category.rank ≤ y.category.rank) ∧
      (∀ c : Category, (printOrder rv.table).filter (fun d => decide (d.category = c)) =
        rv.table.filter (fun d => decide (d.category = c)))) ∧
    (∀ (layout : Line → String) (widthOf : Platform → PtrWidth) (label : String)
        (platform : Platform) (n : String) (a : Nat),
      format layout widthOf
          { label := label, platform := platform, table := [OffsetKind.GlobalAddress n a] } =
        layout (Line.entry Category.globals n (some (hexAddress (widthOf platform) a))) ∧
      format layout widthOf
          { label := label, platform := platform, table := [OffsetKind.FunctionAddress n a] } =
        layout (Line.entry Category.functions n (some (hexAddress (widthOf platform) a)))) ∧
    (∀ (layout : Line → String) (widthOf : Platform → PtrWidth) (label : String)
        (platform : Platform) (n : String) (a : Nat) (ms : List String),
      format layout widthOf
          { label := label, platform := platform, table := [OffsetKind.VTable n a ms] } =
        layout (Line.entry Category.vtables n (some (hexAddress (widthOf platform) a))) ++
          String.join (ms.enum.map (fun im => layout (Line.method im.1 im.2)))) ∧
    (∀ (layout : Line → String) (widthOf : Platform → PtrWidth) (label : String)
        (platform : Platform) (n : String) (va : Option Nat) (fs : List (String × Nat)),
      format layout widthOf
          { label := label, platform := platform, table := [OffsetKind.ClassLayout n va fs] } =
        layout (Line.entry Category.classes n (va.map (hexAddress (widthOf platform)))) ++
          String.join (fs.map (fun fo => layout (Line.field fo.2 fo.1)))) ∧
    (∀ a : Nat,
      (hexAddress PtrWidth.w32 a).length = 8 ∧ (hexAddress PtrWidth.w64 a).length = 16 ∧
      (∀ c ∈ (hexAddress PtrWidth.w32 a).toList, c ∈ hexDigits) ∧
      (∀ c ∈ (hexAddress PtrWidth.w64 a).toList, c ∈ hexDigits) ∧
      hexValue (hexAddress PtrWidth.w32 a).toList = a % 2 ^ 32 ∧
      hexValue (hexAddress PtrWidth.w64 a).toList = a % 2 ^ 64) := by
  refine ⟨⟨_, rfl, rfl⟩, rfl, ?_, by decide, by decide, by decide, ?_, ?_, ?_, ?_, ?_⟩
  · intro layout widthOf
    unfold format
    rw [dumpLines_eq]
    simp [exampleChildResolved, printOrder, categoryOrder, ofCategory, OffsetKind.category,
      entryLines, join_cons, join_nil]
  · intro layout widthOf rv
    exact ⟨format_split layout widthOf rv, printOrder_perm rv.table,
      printOrder_sorted rv.table, fun c => printOrder_filter rv.table c⟩
  · intro layout widthOf label platform n a
    unfold format
    rw [dumpLines_single, dumpLines_single]
    simp [entryLines, join_cons, join_nil]
  · intro layout widthOf label platform n a ms
    unfold format
    rw [dumpLines_single]
    simp [entryLines, join_cons, methodLines_eq, List.enum]
    rfl
  · intro layout widthOf label platform n va fs
    unfold format
    rw [dumpLines_single]
    simp [entryLines, join_cons]
    rfl
  · intro a
    refine ⟨hexAddress_length _ _, hexAddress_length _ _, hexFixed_digits _ _,
      hexFixed_digits _ _, ?_, ?_⟩
    · exact hexFixed_value 8 a
    · exact hexFixed_value 16 a

end CoreClaims

end DFHack
